import Mathlib

/-!
Verification of the cast front-matter codec and ephemeral index of the
`casting` repository (`libs/cast/core/.../yamlio.py` and
`libs/cast/sync/.../index.py`), via a shallow embedding of the Python
source into Lean.

Python `dict`s (which preserve insertion order) are embedded as
association lists `List (String × Yaml)`; assignment to an existing key
keeps its position, assignment to a fresh key appends at the end, exactly
as in CPython.
-/

namespace Casting

/-- Embedding of the Python/YAML values that can appear in front matter. -/
inductive Yaml where
  | str (s : String)
  | int (n : Int)
  | bool (b : Bool)
  | null
  | list (xs : List Yaml)

/-- Test for Python `None`. -/
def Yaml.isNull : Yaml → Bool
  | .null => true
  | _ => false

/-- Front matter: an insertion-ordered string-keyed mapping (Python `dict`). -/
abbrev FrontMatter := List (String × Yaml)

/-- Lookup (`fm.get(k)` / `fm[k]`): value at the first occurrence of the key. -/
def getVal (fm : FrontMatter) (k : String) : Option Yaml :=
  match fm with
  | [] => none
  | (k', v) :: rest => if k' = k then some v else getVal rest k

/-- Key membership (`k in fm`). -/
def hasKey (fm : FrontMatter) (k : String) : Bool :=
  match fm with
  | [] => false
  | (k', _) :: rest => if k' = k then true else hasKey rest k

/-- Assignment `fm[k] = v`: replace in place when the key exists, else append. -/
def setVal (fm : FrontMatter) (k : String) (v : Yaml) : FrontMatter :=
  match fm with
  | [] => [(k, v)]
  | (k', v') :: rest => if k' = k then (k', v) :: rest else (k', v') :: setVal rest k v

/-- Deletion (`fm.pop(k)` discarding the result): drop the key entirely. -/
def removeKey (fm : FrontMatter) (k : String) : FrontMatter :=
  fm.filter (fun p => ¬ p.1 = k)

/-- Python truthiness of an embedded value. -/
def truthy : Yaml → Bool
  | .str s => ¬ s.isEmpty
  | .int n => ¬ n = 0
  | .bool b => b
  | .null => false
  | .list xs => ¬ xs.isEmpty

mutual

/-- Python `str(x)` on the embedded scalars (lists are rendered repr-style;
the exact rendering of non-strings only has to be a fixed function). -/
def pyStr : Yaml → String
  | .str s => s
  | .int n => toString n
  | .bool b => if b then "True" else "False"
  | .null => "None"
  | .list xs => "[" ++ pyStrL xs ++ "]"

/-- Comma-separated rendering of a list of embedded values. -/
def pyStrL : List Yaml → String
  | [] => ""
  | [x] => pyStr x
  | x :: y :: xs => pyStr x ++ ", " ++ pyStrL (y :: xs)

end

/-! Character-level helpers mirroring Python `str.strip` / `str.casefold`
(whitespace is `Char.isWhitespace`; casefold is modelled as lower-casing,
which agrees with Python on ASCII). -/

/-- Left strip on character lists. -/
def trimL (cs : List Char) : List Char := cs.dropWhile Char.isWhitespace

/-- Right strip on character lists. -/
def trimR (cs : List Char) : List Char := (cs.reverse.dropWhile Char.isWhitespace).reverse

/-- Python `s.strip()` on character lists. -/
def trimLC (cs : List Char) : List Char := trimR (trimL cs)

/-- Python `s.strip()` on strings. -/
def pyStrip (s : String) : String := String.mk (trimLC s.data)

/-- Python `str.casefold`, modelled as character-wise lower-casing. -/
def casefold (s : String) : String := String.mk (s.data.map Char.toLower)

/-- True when the character is a parenthesis (excluded from the regex name group). -/
def isParen (c : Char) : Bool := c = '(' ∨ c = ')'

/-- Boolean test that a character list begins with the given pattern. -/
def startsWithL (s pat : List Char) : Bool :=
  match s, pat with
  | _, [] => true
  | [], _ :: _ => false
  | c :: cs, p :: ps => c = p ∧ startsWithL cs ps

/-- Python `k.startswith("cast-")`, the "cast field" test. -/
def isCastKey (k : String) : Bool := startsWithL k.data "cast-".data

/-- Name group extracted from the part `A` preceding the `\( mode \)` suffix:
`A` must be nonempty and free of parentheses; the lazily-matched group is `A`
stripped — except that when `A` is all whitespace, backtracking of the leading
`\s*` makes the group a single whitespace character (the last of `A`). -/
def vaultName (A : List Char) (mode : String) : Option (String × String) :=
  if A.isEmpty then none
  else if A.any isParen then none
  else if (trimLC A).isEmpty then some (String.mk [A.getLastD ' '], mode)
  else some (String.mk (trimLC A), mode)

/-- One alternative of the mode group of `VAULT_ENTRY_REGEX`: try to match
the right-stripped character list `cs` against `name \s* \( mode \)`. -/
def vaultAttempt (mode : String) (cs : List Char) : Option (String × String) :=
  if ("(" ++ mode ++ ")").data.isSuffixOf cs then
    vaultName (cs.take (cs.length - ("(" ++ mode ++ ")").data.length)) mode
  else none

/-- Match of `VAULT_ENTRY_REGEX` (`^\s*(?P<name>[^()]+?)\s*\((?P<mode>live|watch)\)\s*$`)
on a string: returns the captured `(name, mode)` groups.  After right-stripping,
the string must end with `(live)` or `(watch)`, and the name group comes from
the part before that suffix. -/
def vaultEntryMatch (s : String) : Option (String × String) :=
  (vaultAttempt "live" (trimR s.data)).orElse
    (fun _ => vaultAttempt "watch" (trimR s.data))

/-! Embedding of `_canonicalize_cast_lists` (yamlio.py lines 25-78). -/

/-- One step of the `modes_by_name` loop body: `prev == 'live'` is kept,
`watch` is upgraded to `live` in place, a fresh name is appended. -/
def modesInsert (m : List (String × String)) (name mode : String) :
    List (String × String) :=
  match m.find? (fun p => p.1 = name) with
  | some p =>
      if p.2 = "live" then m
      else if p.2 = "watch" ∧ mode = "live" then
        m.map (fun q => if q.1 = name then (q.1, "live") else q)
      else m
  | none => m ++ [(name, mode)]

/-- Processing of a single `cast-hsync` entry against the accumulated map:
non-strings and non-matching strings are skipped, the name group is
stripped and empty names are skipped. -/
def hsyncStep (m : List (String × String)) (e : Yaml) : List (String × String) :=
  match e with
  | .str s =>
      match vaultEntryMatch s with
      | some (g, mode) =>
          let name := pyStrip g
          if name.isEmpty then m else modesInsert m name mode
      | none => m
  | _ => m

/-- Code point of a character, as a natural number. -/
def charN (c : Char) : Nat := c.val.toNat

/-- Lexicographic comparison of character lists by code point — Python's
string ordering. -/
def lexLeB : List Char → List Char → Bool
  | [], _ => true
  | _ :: _, [] => false
  | a :: as, b :: bs =>
      if charN a < charN b then true
      else if charN b < charN a then false
      else lexLeB as bs

/-- String comparison after casefolding, as used by `sorted(..., key=str.casefold)`. -/
def cfLeS (a b : String) : Prop := lexLeB (casefold a).data (casefold b).data = true

instance : DecidableRel cfLeS := fun a b => by
  unfold cfLeS; infer_instance

/-- Case-insensitive order on named pairs used by `sorted(..., key=str.casefold)`. -/
def cfLe {α : Type} (p q : String × α) : Prop := cfLeS p.1 q.1

instance {α : Type} : DecidableRel (cfLe (α := α)) := fun p q => by
  unfold cfLe; infer_instance

/-- Coercion of a `cast-hsync` value to the entry list iterated by the
loop: a string is wrapped in a singleton list, other non-lists become `[]`. -/
def hsyncEntries (hs : Yaml) : List Yaml :=
  match hs with
  | .str s => [.str s]
  | .list xs => xs
  | _ => []

/-- Canonical value of a `cast-hsync` field: entries are folded through
`hsyncStep`, sorted case-insensitively by name and re-rendered. -/
def canonHsyncVal (hs : Yaml) : Yaml :=
  .list ((List.insertionSort cfLe ((hsyncEntries hs).foldl hsyncStep [])).map
    (fun p => Yaml.str (p.1 ++ " (" ++ p.2 ++ ")")))

/-- First-occurrence deduplication (the effect of `set` + a stable sort,
fixed to first-occurrence order for ties of distinct strings). -/
def dedupF (l : List String) (seen : List String) : List String :=
  match l with
  | [] => []
  | x :: xs => if x ∈ seen then dedupF xs seen else x :: dedupF xs (x :: seen)

/-- The stripped nonempty string values of a raw `cast-codebases` list. -/
def codebaseVals (xs : List Yaml) : List String :=
  (xs.map (fun x => pyStrip (pyStr x))).filter (fun s => ¬ s.isEmpty)

/-- Deduplicated, case-insensitively sorted codebase list value. -/
def codebaseSorted (xs : List Yaml) : Yaml :=
  .list ((List.insertionSort cfLeS (dedupF (codebaseVals xs) [])).map Yaml.str)

/-- Canonical value of a `cast-codebases` field: coerce to a list of
stripped nonempty strings, deduplicate and sort case-insensitively. -/
def canonCodebasesVal : Yaml → Yaml
  | .str s => codebaseSorted [.str s]
  | .list xs => codebaseSorted xs
  | _ => .list []

/-- The `cast-hsync` clause of `_canonicalize_cast_lists`: canonicalize the
value in place, skipping an absent or `None` value. -/
def canonHsyncStep (fm : FrontMatter) : FrontMatter :=
  match getVal fm "cast-hsync" with
  | some v => if v.isNull then fm else setVal fm "cast-hsync" (canonHsyncVal v)
  | none => fm

/-- The `cast-codebases` clause of `_canonicalize_cast_lists`. -/
def canonCodebasesStep (fm : FrontMatter) : FrontMatter :=
  match getVal fm "cast-codebases" with
  | some v => if v.isNull then fm else setVal fm "cast-codebases" (canonCodebasesVal v)
  | none => fm

/-- Embedding of `_canonicalize_cast_lists`: canonicalize the `cast-hsync`
and `cast-codebases` values in place. -/
def canonicalizeCastLists (fm0 : FrontMatter) : FrontMatter :=
  canonCodebasesStep (canonHsyncStep fm0)

/-- The module constant `CAST_FIELDS_ORDER` (yamlio.py line 20). -/
def CAST_FIELDS_ORDER : List String :=
  ["cast-id", "cast-hsync", "cast-codebases", "cast-version"]

/-- Embedding of `reorder_cast_fields` (yamlio.py lines 169-199): canonicalize
lists, then rebuild the mapping as `last-updated` (when present), the keys of
`CAST_FIELDS_ORDER` that are present, then the remaining non-cast keys in
their original order.  Cast keys outside `CAST_FIELDS_ORDER` are not copied
into the result. -/
def reorder_cast_fields (fm0 : FrontMatter) : FrontMatter :=
  let fm := canonicalizeCastLists fm0
  let cast_fields := fm.filter (fun p => isCastKey p.1)
  let other_fields := fm.filter (fun p => ¬ isCastKey p.1)
  let lu : FrontMatter :=
    match getVal other_fields "last-updated" with
    | some v => [("last-updated", v)]
    | none => []
  let others :=
    if hasKey other_fields "last-updated" then removeKey other_fields "last-updated"
    else other_fields
  let known := CAST_FIELDS_ORDER.filterMap
    (fun k => (getVal cast_fields k).map (fun v => (k, v)))
  lu ++ known ++ others

/-- Embedding of `ensure_cast_fields` (yamlio.py lines 140-166).  The UUID
generated by `uuid.uuid4()` is passed in as `newId` (the only
nondeterministic step).  Note the source only tests `"cast-id" not in
front_matter`: present-but-empty ids are left alone. -/
def ensure_cast_fields (newId : String) (fm0 : FrontMatter)
    (generate_id : Bool := true) : FrontMatter × Bool :=
  let fm1 := if hasKey fm0 "last-updated" then fm0 else setVal fm0 "last-updated" (.str "")
  let (fm2, m2) :=
    if generate_id ∧ ¬ hasKey fm1 "cast-id" then
      (setVal fm1 "cast-id" (.str newId), true)
    else (fm1, false)
  let (fm3, m3) :=
    if ¬ hasKey fm2 "cast-version" then (setVal fm2 "cast-version" (.int 1), true)
    else (fm2, false)
  (fm3, m2 ∨ m3)

/-! Generic insertion-ordered dictionaries over string keys, for the maps of
`EphemeralIndex` and the result of `parse_hsync_entries`. -/

/-- Generic dictionary lookup (`d.get(k)`). -/
def lookupA {α : Type} (m : List (String × α)) (k : String) : Option α :=
  match m with
  | [] => none
  | (k', v) :: rest => if k' = k then some v else lookupA rest k

/-- Generic dictionary assignment `d[k] = v`. -/
def setA {α : Type} (m : List (String × α)) (k : String) (v : α) :
    List (String × α) :=
  match m with
  | [] => [(k, v)]
  | (k', v') :: rest => if k' = k then (k', v) :: rest else (k', v') :: setA rest k v

/-- One iteration of the `parse_hsync_entries` loop body. -/
def pStep (r : List (String × String)) (e : Yaml) : List (String × String) :=
  match e with
  | .str s =>
      match vaultEntryMatch s with
      | some (name, mode) => setA r name mode
      | none => r
  | _ => r

/-- Whether `parse_hsync_entries` raises on its argument: after the
`if not entries: return {}` guard, `for entry in entries` raises
`TypeError` exactly when the (truthy) value is not iterable — an `int` or
`bool` in the embedded value space.  Lists iterate, and a string iterates
over its one-character strings without raising. -/
def hsync_raises (v : Yaml) : Bool :=
  truthy v &&
    match v with
    | .list _ => false
    | .str _ => false
    | _ => true

/-- Embedding of `parse_hsync_entries` (yamlio.py lines 116-132) on an
arbitrary embedded value (the caller passes `cast_fields.get(...)`, which
need not be a list), giving the returned dict on every non-raising path
(`hsync_raises v = false`): falsy input yields `{}`; iterating a string
yields its one-character strings, none of which can match the regex, so
strings also yield `{}`; each matching entry of a list assigns
`result[name] = mode` (later entries win). -/
def parse_hsync_entries (v : Yaml) : List (String × String) :=
  if ¬ truthy v then []
  else
    match v with
    | .list es => es.foldl pStep []
    | _ => []

mutual

/-- Structural equality of embedded values — Python `==` on them. -/
def Yaml.beq : Yaml → Yaml → Bool
  | .str a, .str b => a = b
  | .int a, .int b => a = b
  | .bool a, .bool b => a = b
  | .null, .null => true
  | .list xs, .list ys => Yaml.beqL xs ys
  | _, _ => false

/-- Structural equality of lists of embedded values. -/
def Yaml.beqL : List Yaml → List Yaml → Bool
  | [], [] => true
  | x :: xs, y :: ys => Yaml.beq x y ∧ Yaml.beqL xs ys
  | _, _ => false

end

/-- Python `==` lifted to `.get` results (`None` compares equal to `None` only). -/
def Yaml.beqO : Option Yaml → Option Yaml → Bool
  | none, none => true
  | some a, some b => Yaml.beq a b
  | _, _ => false

/-! Digest.  `compute_digest` and `normalize_yaml_for_digest` live in
`casting/cast/core` modules that are not among the provided sources (only
their unit tests and their caller in `index.py` are), so they are modelled
from the spec below. -/

/-- Rendering of one front-matter entry as canonical YAML-ish lines:
scalars stripped of surrounding whitespace, lists one item per line. -/
def renderEntry (p : String × Yaml) : List String :=
  match p.2 with
  | .list xs => (p.1 ++ ":") :: xs.map (fun x => "- " ++ pyStrip (pyStr x))
  | v => [p.1 ++ ": " ++ pyStrip (pyStr v)]

/-- Spec-faithful canonical key order (spec §3): `last-updated` first when
present, then `cast-id`, then the remaining `cast-*` keys with `cast-hsync`
and `cast-codebases` first in that order and any other `cast-*` keys
alphabetically, then all non-cast keys in their original order.  (This is
the order the spec prescribes; the key-preserving variant of
`reorder_cast_fields`.) -/
def specKeyOrder (fm : FrontMatter) : FrontMatter :=
  let cast_fields := fm.filter (fun p => isCastKey p.1)
  let other_fields := fm.filter (fun p => ¬ isCastKey p.1)
  let lu : FrontMatter :=
    match getVal other_fields "last-updated" with
    | some v => [("last-updated", v)]
    | none => []
  let others := removeKey other_fields "last-updated"
  let lead := ["cast-id", "cast-hsync", "cast-codebases"]
  let known := lead.filterMap (fun k => (getVal cast_fields k).map (fun v => (k, v)))
  let rest := cast_fields.filter (fun p => ¬ p.1 ∈ lead)
  lu ++ known ++ List.insertionSort cfLe rest ++ others

/-- Modelled from the spec: `normalize_yaml_for_digest` (declared in
`casting.cast.core`, not under the provided sources).  Spec §4.2: it
"drops `last-updated`, then emits keys in a stable order (the canonical
order from C1), scalars stripped of surrounding whitespace, lists rendered
in their canonicalized form". -/
def normalize_yaml_for_digest (fm : FrontMatter) : String :=
  let fm1 := canonicalizeCastLists (removeKey fm "last-updated")
  String.intercalate "\n" ((specKeyOrder fm1).map renderEntry).flatten

/-- Modelled from the spec: `compute_digest` (declared in
`casting.cast.core`, not under the provided sources).  Spec §4.2:
`digest(fm, body) = hex(H(normalize_yaml(fm) ‖ "\n---\n" ‖ body))` where `H`
is any deterministic collision-resistant hash; `H` is modelled as the
identity (the injective idealization of a collision-resistant hash). -/
def compute_digest (fm : FrontMatter) (body : String) : String :=
  normalize_yaml_for_digest fm ++ "\n---\n" ++ body

/-! Embedding of the ephemeral index (`index.py`). -/

/-- Modelled from the spec: the `FileRec` record type is declared in
`casting/cast/core/models.py`, which is not among the provided sources.
Spec §3: "`cast_id`, `relpath` (POSIX, relative to cast_location root),
`digest` (hex), `peers` (mapping peer-name → `live`|`watch`), `codebases`
(list of string)".  `codebases` is kept as the raw list the indexer stores. -/
structure FileRec where
  cast_id : String
  relpath : String
  digest : String
  peers : List (String × String)
  codebases : List Yaml

/-- Embedding of `EphemeralIndex` (index.py lines 19-53): the dual-indexed
in-memory map (`by_id : cast_id → FileRec`, `by_path : relpath → cast_id`). -/
structure EphemeralIndex where
  by_id : List (String × FileRec)
  by_path : List (String × String)

/-- The empty index. -/
def EphemeralIndex.empty : EphemeralIndex := ⟨[], []⟩

/-- Embedding of `EphemeralIndex.add_file` (index.py lines 27-30). -/
def add_file (idx : EphemeralIndex) (rec : FileRec) : EphemeralIndex :=
  { by_id := setA idx.by_id rec.cast_id rec
    by_path := setA idx.by_path rec.relpath rec.cast_id }

/-- Embedding of `EphemeralIndex.get_by_id` (index.py lines 32-34). -/
def get_by_id (idx : EphemeralIndex) (cast_id : String) : Option FileRec :=
  lookupA idx.by_id cast_id

/-- Embedding of `EphemeralIndex.get_by_path` (index.py lines 36-39): note
the truthiness guard `if cast_id` — a falsy (empty) id yields `None`. -/
def get_by_path (idx : EphemeralIndex) (relpath : String) : Option FileRec :=
  match lookupA idx.by_path relpath with
  | some cast_id => if cast_id.isEmpty then none else lookupA idx.by_id cast_id
  | none => none

/-- Outcome of reading one Markdown file: either the `FM_RE` front-matter
regex does not match, or the YAML text fails to load or loads to a
non-mapping (`FrontMatterInvalid`), or it loads to a mapping.  The YAML
library is external, so its outcome on the block is part of the input. -/
inductive FmBlock where
  | absent
  | invalid
  | mapping (fm : FrontMatter)

/-- One Markdown file as seen by the indexer. -/
structure MdFile where
  relpath : String
  content : String
  body : String
  block : FmBlock

/-- Embedding of `parse_cast_file` (yamlio.py lines 81-108): returns
`(front_matter, body, has_cast_fields)`; an unmatched or invalid block
yields `(None, content, False)`. -/
def parse_cast_file (f : MdFile) : Option FrontMatter × String × Bool :=
  match f.block with
  | .absent => (none, f.content, false)
  | .invalid => (none, f.content, false)
  | .mapping fm => (some fm, f.body, fm.any (fun p => isCastKey p.1))

/-- Embedding of the front-matter transformation performed by
`write_cast_file` (yamlio.py lines 202-210): migrate `cast-vaults` to
`cast-hsync` only when `cast-hsync` is absent, then reorder (or at least
canonicalize lists).  The atomic temp-file write itself is I/O and carries
no further front-matter logic. -/
def write_cast_file_fm (fm0 : FrontMatter) (reorder : Bool) : FrontMatter :=
  let fm :=
    if hasKey fm0 "cast-vaults" ∧ ¬ hasKey fm0 "cast-hsync" then
      match getVal fm0 "cast-vaults" with
      | some v => setVal (removeKey fm0 "cast-vaults") "cast-hsync" v
      | none => fm0
    else fm0
  if reorder then reorder_cast_fields fm else canonicalizeCastLists fm

/-- What processing one file did: the record handed to `add_file` (if any),
the front matter written back to disk (if any), and whether the
exception-handler warning fired (the only `logger.warning` in
`build_ephemeral_index`): the per-file body raises exactly when
`parse_hsync_entries` is handed a truthy non-iterable `cast-hsync` value,
so `warned` is `true` precisely on that path — after any write-back, which
precedes the raise, and with the file left unindexed. -/
structure ProcResult where
  added : Option FileRec
  wrote : Option FrontMatter
  warned : Bool

/-- Embedding of the per-file loop body of `build_ephemeral_index`
(index.py lines 105-187, without `limit_file`): the record handed to
`add_file` (if any), the front matter written back (if any), and whether
the body raised into the `except`-handler (index.py lines 185-187), which
happens exactly when `hsync_raises` holds of the `or`-selected
`cast-hsync`/`cast-vaults` value — after the write-back, skipping the
`add_file`.  `newId` stands for the `uuid.uuid4()` that
`ensure_cast_fields` would draw.  A `cast-id` value that is not a string
is recorded as `""` (the `FileRec` type declares `cast_id` a string; the
claims never exercise non-string ids). -/
def processFileCore (f : MdFile) (newId : String) (fixup : Bool) :
    Option FileRec × Option FrontMatter × Bool :=
  match parse_cast_file f with
  | (fmOpt, body, has_cast_fields) =>
    if ¬ has_cast_fields then ⟨none, none, false⟩
    else
      match fmOpt with
      | none => ⟨none, none, false⟩
      | some fm0 =>
        let migrated :=
          fixup ∧ hasKey fm0 "cast-vaults" ∧ ¬ hasKey fm0 "cast-hsync"
        let fmA :=
          if migrated then
            match getVal fm0 "cast-vaults" with
            | some v => setVal (removeKey fm0 "cast-vaults") "cast-hsync" v
            | none => fm0
          else fm0
        let (fm1, fields_modified) :=
          if fixup then ensure_cast_fields newId fmA true else (fmA, false)
        let modified := migrated ∨ (fixup ∧ fields_modified)
        let need_reorder :=
          if fixup then
            let keys := fm1.map (fun p => p.1)
            let reordered := reorder_cast_fields fm1
            if hasKey fm1 "last-updated" ∧ ¬ keys.head? = some "last-updated" then
              true
            else if ¬ reordered.map (fun p => p.1) = keys then true
            else if ¬ Yaml.beqO (getVal reordered "cast-hsync") (getVal fm1 "cast-hsync") then
              true
            else ¬ Yaml.beqO (getVal reordered "cast-codebases") (getVal fm1 "cast-codebases")
          else false
        let wrote :=
          if fixup ∧ (modified ∨ need_reorder) then some (write_cast_file_fm fm1 true)
          else none
        if fm1.isEmpty ∨ ¬ hasKey fm1 "cast-id" then ⟨none, wrote, false⟩
        else
          let cast_fields := fm1.filter (fun p => isCastKey p.1)
          let cast_id :=
            match getVal cast_fields "cast-id" with
            | some (.str s) => s
            | _ => ""
          let hsync_entries :=
            match getVal cast_fields "cast-hsync" with
            | some v =>
                if truthy v then v else (getVal cast_fields "cast-vaults").getD (.list [])
            | none => (getVal cast_fields "cast-vaults").getD (.list [])
          if hsync_raises hsync_entries then ⟨none, wrote, true⟩
          else
            let peers := parse_hsync_entries hsync_entries
            let codebases :=
              match getVal cast_fields "cast-codebases" with
              | some (.list xs) => xs
              | _ => []
            let digest := compute_digest fm1 body
            ⟨some ⟨cast_id, f.relpath, digest, peers, codebases⟩, wrote, false⟩

/-- The per-file loop body packaged as a `ProcResult`: `warned` reflects
the `except`-handler `logger.warning`, fired exactly when the body raised
(a truthy non-iterable `cast-hsync` handed to `parse_hsync_entries`). -/
def processFile (f : MdFile) (newId : String) (fixup : Bool) : ProcResult :=
  let c := processFileCore f newId fixup
  ⟨c.1, c.2.1, c.2.2⟩

/-- One iteration of the `build_ephemeral_index` loop: process a file and
fold its effects into the accumulated index, write-backs and warnings. -/
def buildStep (fixup : Bool)
    (acc : EphemeralIndex × List (String × FrontMatter) × List String)
    (fp : MdFile × String) :
    EphemeralIndex × List (String × FrontMatter) × List String :=
  let r := processFile fp.1 fp.2 fixup
  let idx := match r.added with | some rec => add_file acc.1 rec | none => acc.1
  let ws := match r.wrote with
    | some w => acc.2.1 ++ [(fp.1.relpath, w)]
    | none => acc.2.1
  let warns := if r.warned then acc.2.2 ++ [fp.1.relpath] else acc.2.2
  (idx, ws, warns)

/-- Embedding of `build_ephemeral_index` (index.py lines 56-189, without
`limit_file`): fold the per-file processing over the file list (paired with
the fresh id each file would draw), accumulating the index, the write-backs
and the warnings. -/
def build_ephemeral_index (files : List (MdFile × String)) (fixup : Bool) :
    EphemeralIndex × List (String × FrontMatter) × List String :=
  files.foldl (buildStep fixup) (EphemeralIndex.empty, [], [])

/-! Auxiliary lemmas about the dictionary operations. -/

theorem lookupA_setA {α : Type} (m : List (String × α)) (k j : String) (v : α) :
    lookupA (setA m k v) j = if j = k then some v else lookupA m j := by
  induction m with
  | nil =>
      by_cases hj : j = k
      · subst hj; simp [setA, lookupA]
      · simp [setA, lookupA, hj, show ¬ k = j from fun h => hj h.symm]
  | cons p rest ih =>
      by_cases hk : p.1 = k
      · subst hk
        by_cases hj : j = p.1
        · subst hj; simp [setA, lookupA]
        · simp [setA, lookupA, hj, show ¬ p.1 = j from fun h => hj h.symm]
      · by_cases hj : p.1 = j
        · have hjk : ¬ j = k := fun h => hk (hj.trans h)
          simp [setA, lookupA, hk, hj, hjk]
        · simp [setA, lookupA, hk, hj, ih]

theorem getVal_setVal (fm : FrontMatter) (k j : String) (v : Yaml) :
    getVal (setVal fm k v) j = if j = k then some v else getVal fm j := by
  induction fm with
  | nil =>
      by_cases hj : j = k
      · subst hj; simp [setVal, getVal]
      · simp [setVal, getVal, hj, show ¬ k = j from fun h => hj h.symm]
  | cons p rest ih =>
      by_cases hk : p.1 = k
      · subst hk
        by_cases hj : j = p.1
        · subst hj; simp [setVal, getVal]
        · simp [setVal, getVal, hj, show ¬ p.1 = j from fun h => hj h.symm]
      · by_cases hj : p.1 = j
        · have hjk : ¬ j = k := fun h => hk (hj.trans h)
          simp [setVal, getVal, hk, hj, hjk]
        · simp [setVal, getVal, hk, hj, ih]

theorem removeKey_setVal (fm : FrontMatter) (k : String) (v : Yaml) :
    removeKey (setVal fm k v) k = removeKey fm k := by
  induction fm with
  | nil => simp [setVal, removeKey]
  | cons p rest ih =>
      by_cases hk : p.1 = k
      · simp [setVal, removeKey, hk, List.filter]
      · simpa [setVal, removeKey, hk, List.filter] using ih

/-! Claim theorems. -/

/-- C1 (code bug witness): `reorder_cast_fields` drops `cast-*` keys that are
not in `CAST_FIELDS_ORDER`, contrary to the claim that no key of `fm` is
dropped (and contrary to the repository's own
`test_reorder_unknown_cast_keys`): on `{"cast-id": "X", "cast-zzz": "z"}`
the result contains only `cast-id`. -/
theorem reorder_cast_fields_drops_unknown_cast_key :
    reorder_cast_fields [("cast-id", Yaml.str "X"), ("cast-zzz", Yaml.str "z")]
        = [("cast-id", Yaml.str "X")] ∧
      hasKey (reorder_cast_fields [("cast-id", Yaml.str "X"), ("cast-zzz", Yaml.str "z")])
        "cast-zzz" = false :=
  ⟨rfl, rfl⟩

/-- C4 (code bug witness): `ensure_cast_fields` only tests
`"cast-id" not in front_matter`, so an empty (or whitespace-only) `cast-id`
is left in place and no fresh UUID is generated, contrary to the claim
(and to the repository's own `test_ensure_cast_fields_replaces_empty_id`):
with a fresh id available, `{"cast-id": ""}` keeps its empty id, and
`{"cast-id": "   "}` keeps its whitespace id. -/
theorem ensure_cast_fields_keeps_nonabsent_cast_id :
    (ensure_cast_fields "9b2f7c1a-3d44-4b6e-8a1f-0c5d9e7a2b33"
        [("cast-id", Yaml.str "")] true).1
      = [("cast-id", Yaml.str ""), ("last-updated", Yaml.str ""),
         ("cast-version", Yaml.int 1)] ∧
    getVal (ensure_cast_fields "9b2f7c1a-3d44-4b6e-8a1f-0c5d9e7a2b33"
        [("cast-id", Yaml.str "   ")] true).1 "cast-id"
      = some (Yaml.str "   ") :=
  ⟨rfl, rfl⟩

/-- C2 (counterexample): changing the `title` field from `"x"` to `" x "` is a
change to a front-matter field other than `last-updated`, yet the digest is
unchanged, because the spec's normalization strips scalars of surrounding
whitespace.  So "any other change anywhere in front matter changes the
digest" fails. -/
theorem compute_digest_scalar_whitespace_collision :
    getVal [("title", Yaml.str " x ")] "title" ≠ getVal [("title", Yaml.str "x")] "title" ∧
    compute_digest [("title", Yaml.str " x ")] "body" = compute_digest [("title", Yaml.str "x")] "body" := by
  refine ⟨fun h => ?_, rfl⟩
  have h' : some (Yaml.str " x ") = some (Yaml.str "x") := h
  injection h' with h''
  injection h'' with h3
  exact absurd h3 (by decide)

/-- C2 (amended): the digest is insensitive to replacing `last-updated`;
with the front matter fixed it changes exactly when the body changes; and
with the body fixed it changes exactly when the canonical normalized
rendering of the front matter changes (so a change to another field
changes the digest iff it changes that field's canonicalized, stripped
rendering). -/
theorem compute_digest_canonical_spec :
    (∀ (fm : FrontMatter) (body : String) (v : Yaml),
        compute_digest (setVal fm "last-updated" v) body = compute_digest fm body) ∧
    (∀ (fm : FrontMatter) (b1 b2 : String),
        compute_digest fm b1 = compute_digest fm b2 ↔ b1 = b2) ∧
    (∀ (fm1 fm2 : FrontMatter) (body : String),
        compute_digest fm1 body = compute_digest fm2 body ↔
          normalize_yaml_for_digest fm1 = normalize_yaml_for_digest fm2) := by
  refine ⟨?_, ?_, ?_⟩
  · intro fm body v
    unfold compute_digest normalize_yaml_for_digest
    rw [removeKey_setVal]
  · intro fm b1 b2
    constructor
    · intro h
      have hd := congrArg String.data h
      simp only [String.data_append] at hd
      have := List.append_cancel_left hd
      exact String.ext this
    · intro h; rw [h]
  · intro fm1 fm2 body
    constructor
    · intro h
      have hd := congrArg String.data h
      simp only [String.data_append, ← List.append_assoc] at hd
      have := List.append_cancel_right hd
      have h2 := List.append_cancel_right this
      exact String.ext h2
    · intro h; unfold compute_digest; rw [h]

/-! Claim C9: last-entry-wins semantics of `parse_hsync_entries`. -/

/-- First-defined choice on options (Python-dict-style precedence helper). -/
def oOr {α : Type} (a b : Option α) : Option α :=
  match a with
  | some x => some x
  | none => b

theorem oOr_none {α : Type} (a : Option α) : oOr a none = a := by
  cases a <;> rfl

theorem oOr_assoc {α : Type} (a b c : Option α) :
    oOr (oOr a b) c = oOr a (oOr b c) := by
  cases a <;> rfl

theorem findSome?_append {α β : Type} (f : α → Option β) (l1 l2 : List α) :
    List.findSome? f (l1 ++ l2) = oOr (List.findSome? f l1) (List.findSome? f l2) := by
  induction l1 with
  | nil => simp [List.findSome?, oOr]
  | cons a l1 ih =>
      cases h : f a <;> simp [List.findSome?_cons, h, ih, oOr]

/-- The mode contributed to peer `n` by one raw `cast-hsync` entry: the mode
group when the entry is a string matching the vault-entry pattern with name
group exactly `n`, nothing otherwise. -/
def hsyncEntryFor (n : String) (e : Yaml) : Option String :=
  match e with
  | .str s =>
      match vaultEntryMatch s with
      | some (name, mode) => if name = n then some mode else none
      | none => none
  | _ => none

/-- The mode of the last valid entry for name `n` in list order (the
specification-side reading of "later entries win"). -/
def lastValidMode (es : List Yaml) (n : String) : Option String :=
  es.reverse.findSome? (hsyncEntryFor n)

theorem lookupA_pStep (r : List (String × String)) (e : Yaml) (n : String) :
    lookupA (pStep r e) n = oOr (hsyncEntryFor n e) (lookupA r n) := by
  cases e with
  | str s =>
      cases h : vaultEntryMatch s with
      | none => simp [pStep, hsyncEntryFor, h, oOr]
      | some p =>
          by_cases hn : p.1 = n
          · subst hn
            simp [pStep, hsyncEntryFor, h, oOr, lookupA_setA]
          · have hn' : ¬ n = p.1 := fun hh => hn hh.symm
            simp [pStep, hsyncEntryFor, h, oOr, lookupA_setA, hn, hn']
  | int n' => simp [pStep, hsyncEntryFor, oOr]
  | bool b => simp [pStep, hsyncEntryFor, oOr]
  | null => simp [pStep, hsyncEntryFor, oOr]
  | list xs => simp [pStep, hsyncEntryFor, oOr]

theorem lookupA_foldl_pStep (es : List Yaml) (r : List (String × String)) (n : String) :
    lookupA (es.foldl pStep r) n = oOr (lastValidMode es n) (lookupA r n) := by
  induction es generalizing r with
  | nil => simp [lastValidMode, List.findSome?, oOr]
  | cons e es ih =>
      have h1 : lastValidMode (e :: es) n
          = oOr (lastValidMode es n) (hsyncEntryFor n e) := by
        unfold lastValidMode
        rw [List.reverse_cons, findSome?_append]
        congr 1
        cases h : hsyncEntryFor n e <;> simp [List.findSome?, h]
      calc lookupA ((e :: es).foldl pStep r) n
          = lookupA (es.foldl pStep (pStep r e)) n := rfl
        _ = oOr (lastValidMode es n) (lookupA (pStep r e) n) := ih (pStep r e)
        _ = oOr (lastValidMode es n) (oOr (hsyncEntryFor n e) (lookupA r n)) := by
              rw [lookupA_pStep]
        _ = oOr (lastValidMode (e :: es) n) (lookupA r n) := by
              rw [h1, oOr_assoc]

/-- C9: for every entry list, `parse_hsync_entries` maps each name to the
mode of the last entry in list order that is a string matching the
`"Name (live|watch)"` pattern with that name group (no preference for
`live`); non-string entries and non-matching strings contribute nothing. -/
theorem parse_hsync_entries_last_entry_wins :
    ∀ (es : List Yaml) (n : String),
      lookupA (parse_hsync_entries (Yaml.list es)) n = lastValidMode es n := by
  intro es n
  cases es with
  | nil => simp [parse_hsync_entries, truthy, lastValidMode, List.findSome?, lookupA]
  | cons e es =>
      have ht : truthy (Yaml.list (e :: es)) = true := by simp [truthy]
      have : parse_hsync_entries (Yaml.list (e :: es)) = (e :: es).foldl pStep [] := by
        simp [parse_hsync_entries, ht]
      rw [this, lookupA_foldl_pStep]
      simp [lookupA, oOr_none]

/-! Claim C10: consistency of the dual index. -/

/-- Index obtained from a sequence of `add_file` calls on the empty index. -/
def addAll (recs : List FileRec) : EphemeralIndex :=
  recs.foldl add_file EphemeralIndex.empty

theorem by_path_consistent_aux (recs : List FileRec) (idx : EphemeralIndex)
    (h : ∀ p cid, lookupA idx.by_path p = some cid →
      (lookupA idx.by_id cid).isSome = true) :
    ∀ p cid, lookupA (recs.foldl add_file idx).by_path p = some cid →
      (lookupA (recs.foldl add_file idx).by_id cid).isSome = true := by
  induction recs generalizing idx with
  | nil => exact h
  | cons r recs ih =>
      refine ih (add_file idx r) ?_
      intro p cid hp
      simp only [add_file] at hp ⊢
      rw [lookupA_setA] at hp
      by_cases hpr : p = r.relpath
      · simp [hpr] at hp
        rw [lookupA_setA]
        simp [hp]
      · simp [hpr] at hp
        have hi := h p cid hp
        rw [lookupA_setA]
        by_cases hc : cid = r.cast_id <;> simp [hc, hi]

/-- A record with id `X` at path `p1.md`. -/
def recP1 : FileRec := ⟨"X", "p1.md", "d1", [], []⟩

/-- A second record with the same id `X` at path `p2.md`. -/
def recP2 : FileRec := ⟨"X", "p2.md", "d2", [], []⟩

/-- C10: after any sequence of `add_file` calls, every `cast_id` stored in
`by_path` is a key of `by_id` (so `get_by_path` never dereferences a
missing id); yet after adding two records with the same `cast_id` and
different relpaths, `get_by_path` on the first path returns a record whose
`relpath` is the second path. -/
theorem ephemeral_index_by_path_consistent :
    (∀ (recs : List FileRec) (p cid : String),
        lookupA (addAll recs).by_path p = some cid →
          (lookupA (addAll recs).by_id cid).isSome = true) ∧
    (get_by_path (addAll [recP1, recP2]) "p1.md" = some recP2 ∧
      recP2.relpath ≠ "p1.md") := by
  refine ⟨?_, rfl, by decide⟩
  intro recs p cid
  exact by_path_consistent_aux recs EphemeralIndex.empty
    (by intro p cid hc; simp [EphemeralIndex.empty, lookupA] at hc) p cid

/-- C10 witness: concrete instantiation of the invariant at a one-record
index. -/
theorem ephemeral_index_by_path_consistent_witness :
    (lookupA (addAll [recP1]).by_id "X").isSome = true :=
  ephemeral_index_by_path_consistent.1 [recP1] "p1.md" "X" rfl

/-! Claim C6: invalid front matter is reported as "not a cast file" and
excluded from indexing. -/

theorem processFile_invalid (f : MdFile) (h : f.block = FmBlock.invalid)
    (newId : String) (fixup : Bool) :
    processFile f newId fixup = ⟨none, none, false⟩ := by
  have hp : parse_cast_file f = (none, f.content, false) := by
    unfold parse_cast_file; rw [h]
  unfold processFile processFileCore
  rw [hp]
  rfl

/-- A concrete file whose front-matter block is malformed YAML. -/
def invalidFile : MdFile :=
  ⟨"bad.md", "---\n: [unclosed\n---\nrest of body", "rest of body", .invalid⟩

/-- C6: a file whose front-matter block is malformed YAML (or parses to a
non-mapping) is reported by `parse_cast_file` as not a cast file
(`front_matter = None`, `has_cast_fields = False`), and
`build_ephemeral_index` neither indexes it, writes to it, nor warns about
it: the build over any file list containing it equals the build with the
file removed. -/
theorem invalid_front_matter_excluded (f : MdFile) (h : f.block = FmBlock.invalid) :
    parse_cast_file f = (none, f.content, false) ∧
    (∀ (files1 files2 : List (MdFile × String)) (newId : String) (fixup : Bool),
      build_ephemeral_index (files1 ++ (f, newId) :: files2) fixup
        = build_ephemeral_index (files1 ++ files2) fixup) := by
  constructor
  · unfold parse_cast_file; rw [h]
  · intro files1 files2 newId fixup
    unfold build_ephemeral_index
    rw [List.foldl_append, List.foldl_append, List.foldl_cons]
    congr 1
    unfold buildStep
    rw [processFile_invalid f h]
    rfl

/-- C6 witness: concrete malformed file, concrete one-file build. -/
theorem invalid_front_matter_excluded_witness :
    parse_cast_file invalidFile = (none, invalidFile.content, false) ∧
    build_ephemeral_index [(invalidFile, "u")] true = build_ephemeral_index [] true :=
  ⟨(invalid_front_matter_excluded invalidFile rfl).1,
   (invalid_front_matter_excluded invalidFile rfl).2 [] [] "u" true⟩

/-! Claim C7: duplicate `cast-id` within one cast. -/

theorem build_warns_aux (files : List (MdFile × String)) (fixup : Bool)
    (acc : EphemeralIndex × List (String × FrontMatter) × List String) :
    (files.foldl (buildStep fixup) acc).2.2
      = acc.2.2 ++ (files.filter
          (fun fp => (processFile fp.1 fp.2 fixup).warned)).map
          (fun fp => fp.1.relpath) := by
  induction files generalizing acc with
  | nil => simp
  | cons fp files ih =>
      rw [List.foldl_cons, ih]
      by_cases hw : (processFile fp.1 fp.2 fixup).warned = true
      · simp [buildStep, hw]
      · simp [buildStep, hw]

/-- A concrete file whose `cast-hsync` value is a truthy non-list (`5`):
`parse_hsync_entries` raises `TypeError` on it, so indexing writes the
canonicalized file back, then warns about it and leaves it unindexed. -/
def badHsyncF : MdFile :=
  ⟨"bad-hsync.md", "", "b3",
    .mapping [("last-updated", .str ""), ("cast-id", .str "Y"),
      ("cast-hsync", .int 5), ("cast-version", .int 1)]⟩

/-- The exception-handler warning path is live in the embedding: the
truthy non-list `cast-hsync` file is warned about and not indexed. -/
theorem processFile_badHsync_warns :
    (processFile badHsyncF "u" true).warned = true ∧
    (processFile badHsyncF "u" true).added = none := ⟨rfl, rfl⟩

/-- First of two files carrying the same `cast-id` `X`. -/
def dupF1 : MdFile :=
  ⟨"p1.md", "", "b1",
    .mapping [("last-updated", .str ""), ("cast-id", .str "X"), ("cast-version", .int 1)]⟩

/-- Second file carrying the same `cast-id` `X` at another path. -/
def dupF2 : MdFile :=
  ⟨"p2.md", "", "b2",
    .mapping [("last-updated", .str ""), ("cast-id", .str "X"), ("cast-version", .int 1)]⟩

/-- C7 (counterexample): indexing two files of one cast with the same
`cast-id` makes the later file supersede the earlier one in `by_id` — but
no warning is emitted (the warning list of the build is empty; the only
`logger.warning` in the source is the exception handler), refuting the
claim's "and a warning is emitted". -/
theorem duplicate_cast_id_emits_no_warning :
    get_by_id (build_ephemeral_index [(dupF1, "u1"), (dupF2, "u2")] true).1 "X"
      = some ⟨"X", "p2.md",
          compute_digest
            [("last-updated", .str ""), ("cast-id", .str "X"), ("cast-version", .int 1)]
            "b2", [], []⟩ ∧
    (build_ephemeral_index [(dupF1, "u1"), (dupF2, "u2")] true).2.2 = [] :=
  ⟨rfl, rfl⟩

/-- C7 (amended): when a record with an already-present `cast-id` is added,
the later record supersedes the earlier one in `by_id`; and the warnings
of `build_ephemeral_index` are exactly the per-file exception-handler
warnings — the files whose own processing raises (a truthy non-iterable
`cast-hsync`) — so a duplicate `cast-id` never adds a warning. -/
theorem duplicate_cast_id_later_supersedes :
    (∀ (idx : EphemeralIndex) (r : FileRec),
        get_by_id (add_file idx r) r.cast_id = some r) ∧
    (∀ (files : List (MdFile × String)) (fixup : Bool),
        (build_ephemeral_index files fixup).2.2
          = (files.filter
              (fun fp => (processFile fp.1 fp.2 fixup).warned)).map
              (fun fp => fp.1.relpath)) := by
  constructor
  · intro idx r
    unfold get_by_id add_file
    rw [lookupA_setA]
    simp
  · intro files fixup
    unfold build_ephemeral_index
    rw [build_warns_aux]
    rfl

/-! Claim C8: files carrying both `cast-hsync` and `cast-vaults`. -/

theorem hasKey_append (a b : FrontMatter) (k : String) :
    hasKey (a ++ b) k = (hasKey a k || hasKey b k) := by
  induction a with
  | nil => simp [hasKey]
  | cons p rest ih =>
      by_cases hp : p.1 = k <;> simp [hasKey, hp, ih]

theorem exists_of_hasKey {m : FrontMatter} {k : String} (h : hasKey m k = true) :
    ∃ v, (k, v) ∈ m := by
  induction m with
  | nil => simp [hasKey] at h
  | cons p rest ih =>
      by_cases hp : p.1 = k
      · exact ⟨p.2, by rw [← hp]; simp⟩
      · simp only [hasKey, hp, if_false] at h
        obtain ⟨v, hv⟩ := ih h
        exact ⟨v, by simp [hv]⟩

/-- Every key of a `reorder_cast_fields` result is `last-updated`, one of
the four keys of `CAST_FIELDS_ORDER`, or a non-cast key: nothing else
survives the reordering. -/
theorem keys_reorder_cast_fields (fm : FrontMatter) (k : String)
    (hk : hasKey (reorder_cast_fields fm) k = true) :
    k = "last-updated" ∨ k ∈ CAST_FIELDS_ORDER ∨ isCastKey k = false := by
  unfold reorder_cast_fields at hk
  simp only [hasKey_append, Bool.or_eq_true] at hk
  rcases hk with (h | h) | h
  · left
    cases hx : getVal ((canonicalizeCastLists fm).filter (fun p => ¬ isCastKey p.1))
        "last-updated" with
    | none => rw [hx] at h; simp [hasKey] at h
    | some v => rw [hx] at h; simp [hasKey] at h; exact h.symm
  · right; left
    obtain ⟨v, hv⟩ := exists_of_hasKey h
    rw [List.mem_filterMap] at hv
    obtain ⟨k', hk', hmap⟩ := hv
    cases hg : getVal ((canonicalizeCastLists fm).filter (fun p => isCastKey p.1)) k' with
    | none => rw [hg] at hmap; simp at hmap
    | some w =>
        rw [hg] at hmap
        simp only [Option.map_some'] at hmap
        have : k' = k := congrArg Prod.fst (Option.some.inj hmap)
        rwa [← this]
  · right; right
    have hmem : ∃ v, (k, v) ∈ (canonicalizeCastLists fm).filter (fun p => ¬ isCastKey p.1) := by
      by_cases hc : hasKey ((canonicalizeCastLists fm).filter (fun p => ¬ isCastKey p.1))
          "last-updated"
      · simp only [hc, if_true] at h
        obtain ⟨v, hv⟩ := exists_of_hasKey h
        rw [removeKey, List.mem_filter] at hv
        exact ⟨v, hv.1⟩
      · simp only [hc, if_false] at h
        exact exists_of_hasKey h
    obtain ⟨v, hv⟩ := hmem
    rw [List.mem_filter] at hv
    simpa using hv.2

theorem reorder_no_cast_vaults (fm : FrontMatter) :
    hasKey (reorder_cast_fields fm) "cast-vaults" = false := by
  by_cases h : hasKey (reorder_cast_fields fm) "cast-vaults" = true
  · rcases keys_reorder_cast_fields fm _ h with h1 | h2 | h3
    · exact absurd h1 (by decide)
    · exact absurd h2 (by decide)
    · exact absurd h3 (by decide)
  · simpa using h

/-- A concrete cast file carrying both `cast-hsync` and `cast-vaults`. -/
def bothF : MdFile :=
  ⟨"q.md", "", "b",
    .mapping [("last-updated", .str ""), ("cast-id", .str "Y"),
      ("cast-hsync", .list [.str "A (live)"]),
      ("cast-vaults", .list [.str "B (live)"]), ("cast-version", .int 1)]⟩

/-- C8 (counterexample): a file carrying both `cast-hsync` and
`cast-vaults` is not rejected by any operation: the indexer produces a
`FileRec` for it (parsing peers from `cast-hsync`, ignoring `cast-vaults`),
and `write_cast_file` silently writes it out with `cast-vaults` dropped by
the reorder — no `FrontMatterInvalid` anywhere. -/
theorem both_hsync_and_vaults_not_rejected :
    (processFile bothF "u" true).added.isSome = true ∧
    ((processFile bothF "u" true).added.map FileRec.peers) = some [("A", "live")] ∧
    write_cast_file_fm
        [("cast-hsync", .list [.str "A (live)"]), ("cast-vaults", .list [.str "B (live)"])] true
      = [("cast-hsync", .list [.str "A (live)"])] :=
  ⟨rfl, rfl, rfl⟩

/-- C8 (amended): a file with both keys is accepted everywhere, and the
implementation silently prefers `cast-hsync`: `write_cast_file` skips the
legacy migration and its reorder drops `cast-vaults` from the written
mapping entirely, while the indexer parses peers from `cast-hsync`
whenever that value is truthy (shown concretely in the counterexample). -/
theorem both_hsync_and_vaults_prefer_hsync :
    ∀ (fm : FrontMatter), hasKey fm "cast-hsync" = true → hasKey fm "cast-vaults" = true →
      write_cast_file_fm fm true = reorder_cast_fields fm ∧
      hasKey (write_cast_file_fm fm true) "cast-vaults" = false := by
  intro fm h1 h2
  have hw : write_cast_file_fm fm true = reorder_cast_fields fm := by
    unfold write_cast_file_fm
    simp [h1, h2]
  exact ⟨hw, by rw [hw]; exact reorder_no_cast_vaults fm⟩

/-- C8 witness: the amended statement at a concrete two-key mapping. -/
theorem both_hsync_and_vaults_prefer_hsync_witness :
    write_cast_file_fm [("cast-hsync", Yaml.null), ("cast-vaults", Yaml.null)] true
        = reorder_cast_fields [("cast-hsync", Yaml.null), ("cast-vaults", Yaml.null)] ∧
      hasKey (write_cast_file_fm [("cast-hsync", Yaml.null), ("cast-vaults", Yaml.null)] true)
        "cast-vaults" = false :=
  both_hsync_and_vaults_prefer_hsync
    [("cast-hsync", Yaml.null), ("cast-vaults", Yaml.null)] rfl rfl

/-! Claim C3: characterization of `cast-hsync` canonicalization.  The
specification side follows the claim's words: keep the valid
`"Name (live|watch)"` entries, deduplicate by (stripped, nonempty) name,
give a name `live` exactly when some entry for it is `live`, and sort
case-insensitively by name (stably, so ties keep first-occurrence order). -/

/-- The (stripped) name and mode contributed by one raw entry, when the
entry is a string matching the pattern with a nonempty stripped name. -/
def validNameMode (e : Yaml) : Option (String × String) :=
  match e with
  | .str s =>
      match vaultEntryMatch s with
      | some (g, m) =>
          let n := pyStrip g
          if n.isEmpty then none else some (n, m)
      | none => none
  | _ => none

/-- All valid (name, mode) contributions of an entry list, in order. -/
def vdm (es : List Yaml) : List (String × String) := es.filterMap validNameMode

/-- The names of the valid entries, in order of occurrence. -/
def hsNames (es : List Yaml) : List String := (vdm es).map (fun p => p.1)

/-- Whether some valid entry declares name `n` as `live`. -/
def anyLive (es : List Yaml) (n : String) : Bool :=
  (vdm es).any (fun p => p.1 = n ∧ p.2 = "live")

/-- The claim's mode for a name: `live` when any entry for it is `live`. -/
def specMode (es : List Yaml) (n : String) : String :=
  if anyLive es n then "live" else "watch"

/-- Upgrade of an accumulated (name, mode) pair by the remaining entries:
a `watch` binding becomes `live` when a later `live` entry names it. -/
def upgr (es : List Yaml) (p : String × String) : String × String :=
  if p.2 = "watch" ∧ anyLive es p.1 then (p.1, "live") else p

/-- The claim's name-to-mode association: names deduplicated in
first-occurrence order, each with its `specMode`. -/
def specHsyncAssoc (es : List Yaml) : List (String × String) :=
  (dedupF (hsNames es) []).map (fun n => (n, specMode es n))

/-- The claim's canonical `cast-hsync` list: the association sorted
case-insensitively by name and re-rendered as `"Name (mode)"` strings. -/
def specCanonHsync (es : List Yaml) : List Yaml :=
  (List.insertionSort cfLe (specHsyncAssoc es)).map
    (fun p => Yaml.str (p.1 ++ " (" ++ p.2 ++ ")"))

theorem vaultName_mode {A : List Char} {mode g m : String}
    (h : vaultName A mode = some (g, m)) : m = mode := by
  unfold vaultName at h
  split at h
  · exact absurd h (by simp)
  · split at h
    · exact absurd h (by simp)
    · split at h
      · exact (congrArg Prod.snd (Option.some.inj h)).symm
      · exact (congrArg Prod.snd (Option.some.inj h)).symm

theorem vaultAttempt_mode {mode : String} {cs : List Char} {g m : String}
    (h : vaultAttempt mode cs = some (g, m)) : m = mode := by
  unfold vaultAttempt at h
  split at h
  · exact vaultName_mode h
  · exact absurd h (by simp)

theorem vaultEntryMatch_mode {s g m : String} (h : vaultEntryMatch s = some (g, m)) :
    m = "live" ∨ m = "watch" := by
  unfold vaultEntryMatch at h
  cases hl : vaultAttempt "live" (trimR s.data) with
  | some p =>
      rw [hl] at h
      simp only [Option.orElse] at h
      have h2 : vaultAttempt "live" (trimR s.data) = some (g, m) := by rw [hl, h]
      exact Or.inl (vaultAttempt_mode h2)
  | none =>
      rw [hl] at h
      simp only [Option.orElse] at h
      exact Or.inr (vaultAttempt_mode h)

theorem hsyncStep_eq (m : List (String × String)) (e : Yaml) :
    hsyncStep m e = match validNameMode e with
      | some (n, md) => modesInsert m n md
      | none => m := by
  cases e with
  | str s =>
      cases h : vaultEntryMatch s with
      | none => simp [hsyncStep, validNameMode, h]
      | some p =>
          by_cases hn : (pyStrip p.1).isEmpty
          · simp [hsyncStep, validNameMode, h, hn]
          · simp [hsyncStep, validNameMode, h, hn]
  | int n' => rfl
  | bool b => rfl
  | null => rfl
  | list xs => rfl

theorem dedupF_congr (l : List String) (s1 s2 : List String)
    (h : ∀ x, x ∈ s1 ↔ x ∈ s2) : dedupF l s1 = dedupF l s2 := by
  induction l generalizing s1 s2 with
  | nil => rfl
  | cons x l ih =>
      by_cases hx : x ∈ s1
      · have hx2 : x ∈ s2 := (h x).mp hx
        simp only [dedupF, hx, hx2, if_true]
        exact ih s1 s2 h
      · have hx2 : ¬ x ∈ s2 := fun hh => hx ((h x).mpr hh)
        simp only [dedupF, hx, hx2, if_false]
        rw [ih (x :: s1) (x :: s2) (by intro y; simp [h y])]

theorem dedupF_mem {l seen : List String} {x : String} (h : x ∈ dedupF l seen) :
    x ∈ l ∧ ¬ x ∈ seen := by
  induction l generalizing seen with
  | nil => simp [dedupF] at h
  | cons y l ih =>
      by_cases hy : y ∈ seen
      · simp only [dedupF, hy, if_true] at h
        obtain ⟨h1, h2⟩ := ih h
        exact ⟨by simp [h1], h2⟩
      · simp only [dedupF, hy, if_false] at h
        rcases List.mem_cons.mp h with rfl | h'
        · exact ⟨by simp, hy⟩
        · obtain ⟨h1, h2⟩ := ih h'
          have h3 : ¬ x ∈ seen := fun hh => h2 (by simp [hh])
          exact ⟨by simp [h1], h3⟩

theorem keyUnique {m : List (String × String)}
    (hnd : (m.map (fun p => p.1)).Nodup) {p q : String × String}
    (hp : p ∈ m) (hq : q ∈ m) (hk : p.1 = q.1) : p = q := by
  induction m with
  | nil => simp at hp
  | cons r rest ih =>
      simp only [List.map_cons, List.nodup_cons] at hnd
      rcases List.mem_cons.mp hp with rfl | hp'
      · rcases List.mem_cons.mp hq with rfl | hq'
        · rfl
        · exact absurd (hk ▸ List.mem_map_of_mem (fun p => p.1) hq') hnd.1
      · rcases List.mem_cons.mp hq with rfl | hq'
        · exact absurd (hk ▸ List.mem_map_of_mem (fun p => p.1) hp') hnd.1
        · exact ih hnd.2 hp' hq'

theorem validNameMode_mode {e : Yaml} {n md : String}
    (h : validNameMode e = some (n, md)) : md = "live" ∨ md = "watch" := by
  cases e with
  | str s =>
      cases hm : vaultEntryMatch s with
      | none => simp [validNameMode, hm] at h
      | some p =>
          simp only [validNameMode, hm] at h
          split at h
          · exact absurd h (by simp)
          · have h2 : p.2 = md := congrArg Prod.snd (Option.some.inj h)
            have h3 : vaultEntryMatch s = some (p.1, md) := by rw [hm, ← h2]
            exact vaultEntryMatch_mode h3
  | int n' => simp [validNameMode] at h
  | bool b => simp [validNameMode] at h
  | null => simp [validNameMode] at h
  | list xs => simp [validNameMode] at h

theorem vdm_cons_none {e : Yaml} (es : List Yaml) (h : validNameMode e = none) :
    vdm (e :: es) = vdm es := by
  simp [vdm, List.filterMap_cons, h]

theorem vdm_cons_some {e : Yaml} {n md : String} (es : List Yaml)
    (h : validNameMode e = some (n, md)) :
    vdm (e :: es) = (n, md) :: vdm es := by
  simp [vdm, List.filterMap_cons, h]

theorem anyLive_cons_watch {e : Yaml} {n : String} (es : List Yaml) (x : String)
    (h : validNameMode e = some (n, "watch")) :
    anyLive (e :: es) x = anyLive es x := by
  simp [anyLive, vdm_cons_some es h]

theorem anyLive_cons_live {e : Yaml} {n : String} (es : List Yaml) (x : String)
    (h : validNameMode e = some (n, "live")) :
    anyLive (e :: es) x = (decide (n = x) || anyLive es x) := by
  simp [anyLive, vdm_cons_some es h]

theorem anyLive_cons_none {e : Yaml} (es : List Yaml) (x : String)
    (h : validNameMode e = none) : anyLive (e :: es) x = anyLive es x := by
  simp [anyLive, vdm_cons_none es h]

theorem hsNames_cons_some {e : Yaml} {n md : String} (es : List Yaml)
    (h : validNameMode e = some (n, md)) :
    hsNames (e :: es) = n :: hsNames es := by
  simp [hsNames, vdm_cons_some es h]

theorem hsNames_cons_none {e : Yaml} (es : List Yaml)
    (h : validNameMode e = none) : hsNames (e :: es) = hsNames es := by
  simp [hsNames, vdm_cons_none es h]

theorem specMode_cons_watch {e : Yaml} {n : String} (es : List Yaml) (x : String)
    (h : validNameMode e = some (n, "watch")) :
    specMode (e :: es) x = specMode es x := by
  simp [specMode, anyLive_cons_watch es x h]

theorem specMode_cons_live_ne {e : Yaml} {n : String} (es : List Yaml) (x : String)
    (h : validNameMode e = some (n, "live")) (hx : ¬ n = x) :
    specMode (e :: es) x = specMode es x := by
  simp [specMode, anyLive_cons_live es x h, hx]

theorem specMode_cons_none {e : Yaml} (es : List Yaml) (x : String)
    (h : validNameMode e = none) : specMode (e :: es) x = specMode es x := by
  simp [specMode, anyLive_cons_none es x h]

theorem upgr_cons_watch {e : Yaml} {n : String} (es : List Yaml) (p : String × String)
    (h : validNameMode e = some (n, "watch")) :
    upgr (e :: es) p = upgr es p := by
  simp [upgr, anyLive_cons_watch es p.1 h]

theorem upgr_cons_none {e : Yaml} (es : List Yaml) (p : String × String)
    (h : validNameMode e = none) : upgr (e :: es) p = upgr es p := by
  simp [upgr, anyLive_cons_none es p.1 h]

theorem upgr_cons_live_ne {e : Yaml} {n : String} (es : List Yaml) (p : String × String)
    (h : validNameMode e = some (n, "live")) (hx : ¬ n = p.1) :
    upgr (e :: es) p = upgr es p := by
  simp [upgr, anyLive_cons_live es p.1 h, hx]

theorem modesInsert_found_live {m : List (String × String)} {n md : String}
    {p0 : String × String} (hf : m.find? (fun p => p.1 = n) = some p0)
    (hl : p0.2 = "live") : modesInsert m n md = m := by
  unfold modesInsert
  rw [hf]
  simp [hl]

theorem modesInsert_found_ww {m : List (String × String)} {n : String}
    {p0 : String × String} (hf : m.find? (fun p => p.1 = n) = some p0)
    (hw : p0.2 = "watch") : modesInsert m n "watch" = m := by
  unfold modesInsert
  rw [hf]
  simp [hw]

theorem modesInsert_found_wl {m : List (String × String)} {n : String}
    {p0 : String × String} (hf : m.find? (fun p => p.1 = n) = some p0)
    (hw : p0.2 = "watch") :
    modesInsert m n "live" = m.map (fun q => if q.1 = n then (q.1, "live") else q) := by
  unfold modesInsert
  rw [hf]
  simp [hw]

theorem modesInsert_fresh {m : List (String × String)} {n md : String}
    (hf : m.find? (fun p => p.1 = n) = none) :
    modesInsert m n md = m ++ [(n, md)] := by
  unfold modesInsert
  rw [hf]

theorem hsyncStep_none {e : Yaml} (m : List (String × String))
    (h : validNameMode e = none) : hsyncStep m e = m := by
  rw [hsyncStep_eq, h]

theorem hsyncStep_some {e : Yaml} {n md : String} (m : List (String × String))
    (h : validNameMode e = some (n, md)) : hsyncStep m e = modesInsert m n md := by
  rw [hsyncStep_eq, h]

/-- Invariant characterization of the `modes_by_name` loop: starting from an
accumulator with `live`/`watch` values and distinct names, the loop upgrades
stored `watch` bindings that some remaining `live` entry names, and appends
the remaining fresh names in first-occurrence order, each mapped to `live`
exactly when some entry for it is `live`. -/
theorem foldl_hsyncStep_char (es : List Yaml) :
    ∀ (m : List (String × String)),
      (∀ p ∈ m, p.2 = "live" ∨ p.2 = "watch") →
      (m.map (fun p => p.1)).Nodup →
      es.foldl hsyncStep m
        = m.map (upgr es)
          ++ (dedupF (hsNames es) (m.map (fun p => p.1))).map
              (fun n => (n, specMode es n)) := by
  induction es with
  | nil =>
      intro m hv hnd
      have h2 : ∀ p ∈ m, upgr [] p = p := by
        intro p hp
        simp [upgr, anyLive, vdm]
      rw [List.foldl_nil]
      have h3 : dedupF (hsNames ([] : List Yaml)) (m.map (fun p => p.1)) = [] := rfl
      rw [h3, List.map_nil, List.append_nil, List.map_congr_left h2, List.map_id']
  | cons e es ih =>
      intro m hv hnd
      rw [List.foldl_cons]
      cases hval : validNameMode e with
      | none =>
          rw [hsyncStep_none m hval, ih m hv hnd, hsNames_cons_none es hval]
          congr 1
          · exact List.map_congr_left (fun p _ => (upgr_cons_none es p hval).symm)
          · exact List.map_congr_left
              (fun x _ => by rw [specMode_cons_none es x hval])
      | some nm =>
          obtain ⟨n, md⟩ := nm
          rw [hsyncStep_some m hval]
          have hmd := validNameMode_mode hval
          cases hf : m.find? (fun p => p.1 = n) with
          | some p0 =>
              have hp0mem : p0 ∈ m := List.mem_of_find?_eq_some hf
              have hp0n : p0.1 = n := by
                have h := List.find?_some hf
                exact of_decide_eq_true h
              have hmem : n ∈ m.map (fun p => p.1) :=
                hp0n ▸ List.mem_map_of_mem (fun p => p.1) hp0mem
              have hded : dedupF (n :: hsNames es) (m.map (fun p => p.1))
                  = dedupF (hsNames es) (m.map (fun p => p.1)) := by
                simp [dedupF, hmem]
              rcases hv p0 hp0mem with hl | hw
              · -- stored mode is live: the new entry is ignored
                rw [modesInsert_found_live hf hl, ih m hv hnd,
                  hsNames_cons_some es hval, hded]
                congr 1
                · apply List.map_congr_left
                  intro q hq
                  by_cases hqn : n = q.1
                  · have hq0 : q = p0 := keyUnique hnd hq hp0mem (by rw [hp0n, ← hqn])
                    subst hq0
                    simp [upgr, hl]
                  · rcases hmd with rfl | rfl
                    · rw [upgr_cons_live_ne es q hval hqn]
                    · rw [upgr_cons_watch es q hval]
                · apply List.map_congr_left
                  intro x hx
                  have hxn : ¬ n = x := fun hh => (dedupF_mem hx).2 (hh ▸ hmem)
                  rcases hmd with rfl | rfl
                  · rw [specMode_cons_live_ne es x hval hxn]
                  · rw [specMode_cons_watch es x hval]
              · -- stored mode is watch
                rcases hmd with rfl | rfl
                · -- new mode live: upgrade in place
                  rw [modesInsert_found_wl hf hw]
                  have hkeys : (m.map (fun q => if q.1 = n then (q.1, "live") else q)).map
                      (fun p => p.1) = m.map (fun p => p.1) := by
                    rw [List.map_map]
                    apply List.map_congr_left
                    intro q _
                    by_cases hqn : q.1 = n <;> simp [hqn]
                  have hv' : ∀ p ∈ m.map (fun q => if q.1 = n then (q.1, "live") else q),
                      p.2 = "live" ∨ p.2 = "watch" := by
                    intro p hp
                    obtain ⟨q, hq, hqe⟩ := List.mem_map.mp hp
                    by_cases hqn : q.1 = n
                    · rw [← hqe]; simp [hqn]
                    · rw [← hqe]; simp only [hqn, if_false]; exact hv q hq
                  have hnd' : ((m.map (fun q => if q.1 = n then (q.1, "live") else q)).map
                      (fun p => p.1)).Nodup := by rw [hkeys]; exact hnd
                  rw [ih _ hv' hnd', hkeys, hsNames_cons_some es hval, hded]
                  congr 1
                  · rw [List.map_map]
                    apply List.map_congr_left
                    intro q hq
                    by_cases hqn : q.1 = n
                    · have hq0 : q = p0 := keyUnique hnd hq hp0mem (by rw [hqn, hp0n])
                      subst hq0
                      have hany : anyLive (e :: es) n = true := by
                        rw [anyLive_cons_live es n hval]
                        simp
                      simp [Function.comp, hqn, upgr, hw, hany]
                    · have hqn' : ¬ n = q.1 := fun hh => hqn hh.symm
                      simp only [Function.comp_apply, hqn, if_false]
                      rw [upgr_cons_live_ne es q hval hqn']
                  · apply List.map_congr_left
                    intro x hx
                    have hxn : ¬ n = x := fun hh => (dedupF_mem hx).2 (hh ▸ hmem)
                    rw [specMode_cons_live_ne es x hval hxn]
                · -- new mode watch: the new entry is ignored
                  rw [modesInsert_found_ww hf hw, ih m hv hnd,
                    hsNames_cons_some es hval, hded]
                  congr 1
                  · exact List.map_congr_left (fun q _ => (upgr_cons_watch es q hval).symm)
                  · exact List.map_congr_left
                      (fun x _ => by rw [specMode_cons_watch es x hval])
          | none =>
              have hfresh : ∀ q ∈ m, ¬ q.1 = n := by
                intro q hq
                have h := List.find?_eq_none.mp hf q hq
                simpa using h
              have hnmem : ¬ n ∈ m.map (fun p => p.1) := by
                intro hmem
                obtain ⟨q, hq, hqe⟩ := List.mem_map.mp hmem
                exact hfresh q hq hqe
              rw [modesInsert_fresh hf]
              have hv' : ∀ p ∈ m ++ [(n, md)], p.2 = "live" ∨ p.2 = "watch" := by
                intro p hp
                rcases List.mem_append.mp hp with hp1 | hp2
                · exact hv p hp1
                · rcases List.mem_cons.mp hp2 with rfl | h0
                  · exact hmd
                  · simp at h0
              have hnd' : ((m ++ [(n, md)]).map (fun p => p.1)).Nodup := by
                rw [List.map_append]
                simp only [List.map_cons, List.map_nil]
                rw [List.nodup_append]
                refine ⟨hnd, List.nodup_singleton n, ?_⟩
                intro x hx hx2
                simp only [List.mem_singleton] at hx2
                exact hnmem (hx2 ▸ hx)
              rw [ih _ hv' hnd', List.map_append, List.map_append]
              simp only [List.map_cons, List.map_nil]
              have hded2 : dedupF (hsNames es) (m.map (fun p => p.1) ++ [n])
                  = dedupF (hsNames es) (n :: m.map (fun p => p.1)) :=
                dedupF_congr _ _ _ (by intro x; simp [or_comm])
              rw [hded2, hsNames_cons_some es hval]
              have hdedc : dedupF (n :: hsNames es) (m.map (fun p => p.1))
                  = n :: dedupF (hsNames es) (n :: m.map (fun p => p.1)) := by
                simp [dedupF, hnmem]
              rw [hdedc, List.append_assoc]
              congr 1
              · apply List.map_congr_left
                intro q hq
                have hqn' : ¬ n = q.1 := fun hh => hfresh q hq hh.symm
                rcases hmd with rfl | rfl
                · rw [upgr_cons_live_ne es q hval hqn']
                · rw [upgr_cons_watch es q hval]
              · rw [List.singleton_append, List.map_cons]
                congr 1
                · rcases hmd with rfl | rfl
                  · have h1 : upgr es (n, "live") = (n, "live") := by simp [upgr]
                    have h2 : specMode (e :: es) n = "live" := by
                      simp [specMode, anyLive_cons_live es n hval]
                    rw [h1, h2]
                  · rw [specMode_cons_watch es n hval]
                    by_cases ha : anyLive es n
                    · simp [upgr, specMode, ha]
                    · simp [upgr, specMode, ha]
                · apply List.map_congr_left
                  intro x hx
                  have hxn : ¬ n = x := fun hh =>
                    (dedupF_mem hx).2 (by simp [hh])
                  rcases hmd with rfl | rfl
                  · rw [specMode_cons_live_ne es x hval hxn]
                  · rw [specMode_cons_watch es x hval]

/-- The canonical `cast-hsync` value of a raw list is exactly the claim's
canonical list. -/
theorem canonHsyncVal_list (es : List Yaml) :
    canonHsyncVal (Yaml.list es) = Yaml.list (specCanonHsync es) := by
  unfold canonHsyncVal specCanonHsync specHsyncAssoc
  have h : hsyncEntries (Yaml.list es) = es := rfl
  rw [h, foldl_hsyncStep_char es [] (by simp) (by simp)]
  simp

theorem getVal_append (a b : FrontMatter) (k : String) :
    getVal (a ++ b) k = oOr (getVal a k) (getVal b k) := by
  induction a with
  | nil => simp [getVal, oOr]
  | cons p rest ih =>
      by_cases hp : p.1 = k <;> simp [getVal, hp, ih, oOr]

theorem getVal_filter_key (q : String → Bool) (fm : FrontMatter) (k : String) :
    getVal (fm.filter (fun p => q p.1)) k = if q k then getVal fm k else none := by
  induction fm with
  | nil => by_cases hq : q k <;> simp [getVal, hq]
  | cons p rest ih =>
      by_cases hp : p.1 = k
      · subst hp
        by_cases hq : q p.1 <;> simp [List.filter, getVal, hq, ih]
      · by_cases hq : q p.1 <;> simp [List.filter, getVal, hq, hp, ih]

theorem getVal_known_none (ks : List String) (m : FrontMatter) (k : String)
    (hk : ¬ k ∈ ks) :
    getVal (ks.filterMap (fun j => (getVal m j).map (fun v => (j, v)))) k = none := by
  induction ks with
  | nil => rfl
  | cons k0 ks ih =>
      have hk0 : ¬ k0 = k := fun hh => hk (by simp [hh])
      have hks : ¬ k ∈ ks := fun hh => hk (by simp [hh])
      rw [List.filterMap_cons]
      cases hg : getVal m k0 with
      | none => exact ih hks
      | some v => simp [getVal, hk0, ih hks]

theorem getVal_known (ks : List String) (m : FrontMatter) (k : String)
    (hks : k ∈ ks) (hnd : ks.Nodup) :
    getVal (ks.filterMap (fun j => (getVal m j).map (fun v => (j, v)))) k
      = getVal m k := by
  induction ks with
  | nil => simp at hks
  | cons k0 ks ih =>
      rw [List.filterMap_cons]
      rcases List.mem_cons.mp hks with rfl | hmem
      · cases hg : getVal m k with
        | none => exact getVal_known_none ks m k (List.nodup_cons.mp hnd).1
        | some v => simp [getVal]
      · have hk0 : ¬ k0 = k := fun hh =>
          (List.nodup_cons.mp hnd).1 (hh ▸ hmem)
        cases hg : getVal m k0 with
        | none => exact ih hmem (List.nodup_cons.mp hnd).2
        | some v => simp [getVal, hk0, ih hmem (List.nodup_cons.mp hnd).2]

theorem canonHsyncStep_other (fm : FrontMatter) (k : String)
    (hk : ¬ k = "cast-hsync") : getVal (canonHsyncStep fm) k = getVal fm k := by
  unfold canonHsyncStep
  cases hg : getVal fm "cast-hsync" with
  | none => rfl
  | some v =>
      by_cases hn : v.isNull
      · simp [hn]
      · simp [hn, getVal_setVal, hk]

theorem canonCodebasesStep_other (fm : FrontMatter) (k : String)
    (hk : ¬ k = "cast-codebases") :
    getVal (canonCodebasesStep fm) k = getVal fm k := by
  unfold canonCodebasesStep
  cases hg : getVal fm "cast-codebases" with
  | none => rfl
  | some v =>
      by_cases hn : v.isNull
      · simp [hn]
      · simp [hn, getVal_setVal, hk]

theorem canonicalize_hsync_val (fm : FrontMatter) (es : List Yaml)
    (h : getVal fm "cast-hsync" = some (Yaml.list es)) :
    getVal (canonicalizeCastLists fm) "cast-hsync"
      = some (Yaml.list (specCanonHsync es)) := by
  unfold canonicalizeCastLists
  rw [canonCodebasesStep_other _ _ (by decide)]
  unfold canonHsyncStep
  rw [h]
  simp [Yaml.isNull, getVal_setVal, canonHsyncVal_list]

/-- C3: for a front matter whose `cast-hsync` value is a list,
canonicalization (by `_canonicalize_cast_lists`, hence by
`reorder_cast_fields`) replaces it with the claim's canonical list: the
valid `"Name (live|watch)"` entries deduplicated by name with `live`
winning when a name carries both modes, sorted case-insensitively by
name. -/
theorem canonicalize_hsync_dedup_live_sorted :
    ∀ (fm : FrontMatter) (es : List Yaml),
      getVal fm "cast-hsync" = some (Yaml.list es) →
      getVal (canonicalizeCastLists fm) "cast-hsync"
          = some (Yaml.list (specCanonHsync es)) ∧
        getVal (reorder_cast_fields fm) "cast-hsync"
          = some (Yaml.list (specCanonHsync es)) := by
  intro fm es h
  have h1 := canonicalize_hsync_val fm es h
  refine ⟨h1, ?_⟩
  unfold reorder_cast_fields
  rw [getVal_append, getVal_append]
  have hlu : oOr (getVal
      (match getVal ((canonicalizeCastLists fm).filter (fun p => ¬ isCastKey p.1))
          "last-updated" with
        | some v => [("last-updated", v)]
        | none => ([] : FrontMatter)) "cast-hsync") (getVal
      (CAST_FIELDS_ORDER.filterMap
        (fun k => (getVal ((canonicalizeCastLists fm).filter (fun p => isCastKey p.1)) k).map
          (fun v => (k, v)))) "cast-hsync")
      = getVal ((canonicalizeCastLists fm).filter (fun p => isCastKey p.1)) "cast-hsync" := by
    have ha : getVal
        (match getVal ((canonicalizeCastLists fm).filter (fun p => ¬ isCastKey p.1))
            "last-updated" with
          | some v => [("last-updated", v)]
          | none => ([] : FrontMatter)) "cast-hsync" = none := by
      cases getVal ((canonicalizeCastLists fm).filter (fun p => ¬ isCastKey p.1))
          "last-updated" with
      | some v => simp [getVal]
      | none => rfl
    rw [ha]
    have hb := getVal_known CAST_FIELDS_ORDER
      ((canonicalizeCastLists fm).filter (fun p => isCastKey p.1)) "cast-hsync"
      (by decide) (by decide)
    rw [hb]
    rfl
  rw [hlu]
  have hc := getVal_filter_key isCastKey (canonicalizeCastLists fm) "cast-hsync"
  rw [hc]
  have hck : isCastKey "cast-hsync" = true := rfl
  rw [hck, if_pos rfl, h1]
  rfl

/-- A concrete mixed list exercising dedup, live preference and sorting. -/
def hsyncFmW : FrontMatter :=
  [("cast-hsync", Yaml.list [.str "b (watch)", .str "A (live)", .str "b (live)", .str "A (watch)"])]

/-- C3 witness: the characterization applied to a concrete front matter. -/
theorem canonicalize_hsync_dedup_live_sorted_witness :
    getVal (canonicalizeCastLists hsyncFmW) "cast-hsync"
        = some (Yaml.list (specCanonHsync
            [.str "b (watch)", .str "A (live)", .str "b (live)", .str "A (watch)"])) ∧
      getVal (reorder_cast_fields hsyncFmW) "cast-hsync"
        = some (Yaml.list (specCanonHsync
            [.str "b (watch)", .str "A (live)", .str "b (live)", .str "A (watch)"])) :=
  canonicalize_hsync_dedup_live_sorted hsyncFmW _ rfl

end Casting

namespace Casting

theorem trimL_suffix (l : List Char) : trimL l <:+ l := List.dropWhile_suffix _

theorem trimR_pref (l : List Char) : trimR l <+: l := by
  unfold trimR
  rw [← List.reverse_reverse l]
  exact List.reverse_prefix.mpr (by rw [List.reverse_reverse]; exact List.dropWhile_suffix _)

theorem trimL_idem (l : List Char) : trimL (trimL l) = trimL l :=
  List.dropWhile_idempotent _ _

theorem trimR_idem (l : List Char) : trimR (trimR l) = trimR l := by
  unfold trimR
  rw [List.reverse_reverse, List.dropWhile_idempotent]

theorem mem_trimL {l : List Char} {c : Char} (h : c ∈ trimL l) : c ∈ l :=
  (trimL_suffix l).subset h

theorem mem_trimR {l : List Char} {c : Char} (h : c ∈ trimR l) : c ∈ l :=
  (trimR_pref l).subset h

theorem mem_trimLC {l : List Char} {c : Char} (h : c ∈ trimLC l) : c ∈ l :=
  mem_trimL (mem_trimR h)

theorem trimL_cons_not_ws {a : Char} (l : List Char) (h : a.isWhitespace = false) :
    trimL (a :: l) = a :: l := by
  unfold trimL
  rw [List.dropWhile_cons_of_neg (by simp [h])]

theorem head_not_ws {a : Char} {l : List Char} (h : trimL (a :: l) = a :: l) :
    a.isWhitespace = false := by
  by_cases ha : a.isWhitespace
  · exfalso
    unfold trimL at h
    rw [List.dropWhile_cons_of_pos (by simp [ha])] at h
    have hlen := congrArg List.length h
    have hle := ((List.dropWhile_suffix Char.isWhitespace (l := l)).length_le)
    simp at hlen
    omega
  · simpa using ha

theorem trimL_fix {l : List Char} (h : trimL l = l) : trimL (trimR l) = trimR l := by
  cases l with
  | nil => rfl
  | cons a as =>
      have ha := head_not_ws h
      cases hr : trimR (a :: as) with
      | nil => rfl
      | cons c cs =>
          have hpre : (c :: cs) <+: (a :: as) := hr ▸ trimR_pref (a :: as)
          obtain ⟨t, ht⟩ := hpre
          have hc : c = a := by
            have := congrArg (List.headD · ' ') ht
            simpa using this
          subst hc
          exact trimL_cons_not_ws cs ha

theorem trimLC_idem (l : List Char) : trimLC (trimLC l) = trimLC l := by
  unfold trimLC
  rw [trimL_fix (trimL_idem l), trimR_idem]

theorem pyStrip_idem (s : String) : pyStrip (pyStrip s) = pyStrip s := by
  unfold pyStrip
  rw [show (String.mk (trimLC s.data)).data = trimLC s.data from rfl, trimLC_idem]

theorem trim_eq_of_trimLC {l : List Char} (h : trimLC l = l) :
    trimL l = l ∧ trimR l = l := by
  have h1 : trimL l = l := by
    have hle1 : (trimL l).length ≤ l.length := (trimL_suffix l).length_le
    have hle2 : (trimR (trimL l)).length ≤ (trimL l).length :=
      (trimR_pref (trimL l)).length_le
    have heq : (trimLC l).length = l.length := by rw [h]
    unfold trimLC at heq
    exact (trimL_suffix l).eq_of_length (by omega)
  refine ⟨h1, ?_⟩
  have h2 := h
  unfold trimLC at h2
  rwa [h1] at h2

theorem trimR_append_last {l : List Char} {c : Char} (h : c.isWhitespace = false) :
    trimR (l ++ [c]) = l ++ [c] := by
  unfold trimR
  rw [List.reverse_append]
  simp only [List.reverse_cons, List.reverse_nil, List.nil_append, List.singleton_append]
  rw [List.dropWhile_cons_of_neg (by simp [h])]
  simp

theorem trimR_append_ws {l : List Char} {c : Char} (h : c.isWhitespace = true) :
    trimR (l ++ [c]) = trimR l := by
  unfold trimR
  rw [List.reverse_append]
  simp only [List.reverse_cons, List.reverse_nil, List.nil_append, List.singleton_append]
  rw [List.dropWhile_cons_of_pos (by simp [h])]

theorem getLastD_mem {l : List Char} (h : ¬ l = []) : ∀ (d : Char), l.getLastD d ∈ l := by
  induction l with
  | nil => exact absurd rfl h
  | cons a as ih =>
      intro d
      cases as with
      | nil => simp
      | cons b bs =>
          have h2 := ih (by simp) a
          rw [List.getLastD_cons]
          exact List.mem_cons_of_mem a h2

end Casting

namespace Casting

/-- The names surviving canonicalization: stripped, nonempty, paren-free. -/
def GoodName (n : String) : Prop :=
  trimLC n.data = n.data ∧ ¬ n.data = [] ∧ ∀ c ∈ n.data, isParen c = false

theorem take_len_succ (N : List Char) (c : Char) (rest : List Char) :
    (N ++ c :: rest).take (N.length + 1) = N ++ [c] := by
  induction N with
  | nil => simp
  | cons a as ih => simp [List.take_succ_cons, ih]

theorem isEmpty_false_of_data {s : String} (h : ¬ s.data = []) : s.isEmpty = false := by
  rw [Bool.eq_false_iff]
  intro hc
  rw [String.isEmpty_iff s] at hc
  exact h (by rw [hc])

theorem trimLC_good {n : String} (hg : GoodName n) :
    trimLC (n.data ++ [' ']) = n.data := by
  obtain ⟨ht, hne, _⟩ := hg
  obtain ⟨h1, h2⟩ := trim_eq_of_trimLC ht
  unfold trimLC
  cases hN : n.data with
  | nil => exact absurd hN hne
  | cons a as =>
      have ha : a.isWhitespace = false := head_not_ws (hN ▸ h1)
      have : trimL ((a :: as) ++ [' ']) = (a :: as) ++ [' '] := by
        rw [List.cons_append]
        exact trimL_cons_not_ws _ ha
      rw [this, List.cons_append, ← List.cons_append, trimR_append_ws (by decide)]
      rw [← hN, h2]

theorem vaultName_good {n : String} (mode : String) (hg : GoodName n) :
    vaultName (n.data ++ [' ']) mode = some (n, mode) := by
  obtain ⟨ht, hne, hpar⟩ := hg
  unfold vaultName
  have hany : (n.data ++ [' ']).any isParen = false := by
    rw [List.any_append]
    have h1 : n.data.any isParen = false := by
      cases hp : n.data.any isParen with
      | false => rfl
      | true =>
          rw [List.any_eq_true] at hp
          obtain ⟨c, hc, hcp⟩ := hp
          rw [hpar c hc] at hcp
          exact absurd hcp (by simp)
    rw [h1]
    rfl
  rw [if_neg (by simp), if_neg (by simp [hany]), trimLC_good ⟨ht, hne, hpar⟩,
    if_neg (by simp [hne])]

theorem reparse_live {n : String} (hg : GoodName n) :
    vaultEntryMatch (n ++ " (live)") = some (n, "live") := by
  unfold vaultEntryMatch
  have hdata : (n ++ " (live)").data = n.data ++ " (live)".data := String.data_append n _
  have hlast : trimR ((n ++ " (live)").data) = n.data ++ " (live)".data := by
    rw [hdata, show (" (live)").data = [' ','(','l','i','v','e'] ++ [')'] from rfl,
      ← List.append_assoc]
    exact trimR_append_last (by decide)
  rw [hlast]
  have hsuf : ("(" ++ "live" ++ ")").data.isSuffixOf (n.data ++ " (live)".data) = true := by
    rw [List.isSuffixOf_iff_suffix]
    exact ⟨n.data ++ [' '], by
      rw [List.append_assoc]
      rfl⟩
  unfold vaultAttempt
  rw [if_pos hsuf]
  have hlen : (n.data ++ " (live)".data).length - ("(" ++ "live" ++ ")").data.length
      = n.data.length + 1 := by
    simp [show (" (live)").data.length = 7 from rfl,
      show ("(" ++ "live" ++ ")").data.length = 6 from rfl]
  rw [hlen, show (" (live)").data = ' ' :: "(live)".data from rfl, take_len_succ]
  have h2 := vaultName_good "live" hg
  rw [h2]
  rfl

theorem reparse_watch {n : String} (hg : GoodName n) :
    vaultEntryMatch (n ++ " (watch)") = some (n, "watch") := by
  unfold vaultEntryMatch
  have hdata : (n ++ " (watch)").data = n.data ++ " (watch)".data := String.data_append n _
  have hlast : trimR ((n ++ " (watch)").data) = n.data ++ " (watch)".data := by
    rw [hdata, show (" (watch)").data = [' ','(','w','a','t','c','h'] ++ [')'] from rfl,
      ← List.append_assoc]
    exact trimR_append_last (by decide)
  rw [hlast]
  have hnosuf : ("(" ++ "live" ++ ")").data.isSuffixOf (n.data ++ " (watch)".data) = false := by
    rw [Bool.eq_false_iff]
    intro hc
    rw [List.isSuffixOf_iff_suffix] at hc
    obtain ⟨t, ht⟩ := hc
    have h2 := congrArg List.reverse ht
    simp only [List.reverse_append] at h2
    rw [show (("(" ++ "live" ++ ")").data).reverse = [')','e','v','i','l','('] from rfl] at h2
    rw [show ((" (watch)").data).reverse = [')','h','c','t','a','w','(',' '] from rfl] at h2
    simp at h2
  have hstep : vaultAttempt "live" (n.data ++ " (watch)".data) = none := by
    unfold vaultAttempt
    rw [hnosuf]
    rfl
  rw [hstep]
  have hsuf : ("(" ++ "watch" ++ ")").data.isSuffixOf (n.data ++ " (watch)".data) = true := by
    rw [List.isSuffixOf_iff_suffix]
    exact ⟨n.data ++ [' '], by
      rw [List.append_assoc]
      rfl⟩
  have hrest : vaultAttempt "watch" (n.data ++ " (watch)".data) = some (n, "watch") := by
    unfold vaultAttempt
    rw [if_pos hsuf]
    have hlen : (n.data ++ " (watch)".data).length - ("(" ++ "watch" ++ ")").data.length
        = n.data.length + 1 := by
      simp [show (" (watch)").data.length = 8 from rfl,
        show ("(" ++ "watch" ++ ")").data.length = 7 from rfl]
    rw [hlen, show (" (watch)").data = ' ' :: "(watch)".data from rfl, take_len_succ]
    exact vaultName_good "watch" hg
  rw [hrest]
  rfl

end Casting

namespace Casting

theorem lexLeB_total : ∀ (as bs : List Char),
    lexLeB as bs = true ∨ lexLeB bs as = true := by
  intro as
  induction as with
  | nil => intro bs; left; rfl
  | cons a as ih =>
      intro bs
      cases bs with
      | nil => right; rfl
      | cons b bs =>
          by_cases h1 : charN a < charN b
          · left; simp [lexLeB, h1]
          · by_cases h2 : charN b < charN a
            · right; simp [lexLeB, h2]
            · rcases ih bs with h | h
              · left; simp [lexLeB, h1, h2, h]
              · right; simp [lexLeB, h1, h2, h]

theorem lexLeB_trans : ∀ (as bs cs : List Char),
    lexLeB as bs = true → lexLeB bs cs = true → lexLeB as cs = true := by
  intro as
  induction as with
  | nil => intro bs cs _ _; rfl
  | cons a as ih =>
      intro bs cs hab hbc
      cases bs with
      | nil => simp [lexLeB] at hab
      | cons b bs =>
          cases cs with
          | nil => simp [lexLeB] at hbc
          | cons c cs =>
              by_cases h1 : charN a < charN b
              · by_cases h2 : charN b < charN c
                · simp [lexLeB, show charN a < charN c by omega]
                · by_cases h3 : charN c < charN b
                  · simp [lexLeB, h2, h3] at hbc
                  · have : charN b = charN c := by omega
                    simp [lexLeB, show charN a < charN c by omega]
              · by_cases h4 : charN b < charN a
                · simp [lexLeB, h1, h4] at hab
                · have hex : charN a = charN b := by omega
                  by_cases h2 : charN b < charN c
                  · simp [lexLeB, show charN a < charN c by omega]
                  · by_cases h3 : charN c < charN b
                    · simp [lexLeB, h2, h3] at hbc
                    · have hey : charN b = charN c := by omega
                      simp only [lexLeB, h1, h4, if_false] at hab
                      simp only [lexLeB, h2, h3, if_false] at hbc
                      simp [lexLeB, show ¬ charN a < charN c by omega,
                        show ¬ charN c < charN a by omega, ih bs cs hab hbc]

instance : IsTotal String cfLeS :=
  ⟨fun a b => lexLeB_total (casefold a).data (casefold b).data⟩

instance : IsTrans String cfLeS :=
  ⟨fun a b c hab hbc => lexLeB_trans _ _ _ hab hbc⟩

instance {α : Type} : IsTotal (String × α) cfLe :=
  ⟨fun p q => IsTotal.total (r := cfLeS) p.1 q.1⟩

instance {α : Type} : IsTrans (String × α) cfLe :=
  ⟨fun p q r hpq hqr => IsTrans.trans (r := cfLeS) p.1 q.1 r.1 hpq hqr⟩

theorem dedupF_nodup (l : List String) (seen : List String) :
    (dedupF l seen).Nodup := by
  induction l generalizing seen with
  | nil => exact List.nodup_nil
  | cons x l ih =>
      by_cases hx : x ∈ seen
      · simp only [dedupF, hx, if_true]
        exact ih seen
      · simp only [dedupF, hx, if_false]
        rw [List.nodup_cons]
        refine ⟨fun hc => ?_, ih (x :: seen)⟩
        exact (dedupF_mem hc).2 (by simp)

theorem dedupF_eq_self {l seen : List String} (hnd : l.Nodup)
    (hs : ∀ x ∈ l, ¬ x ∈ seen) : dedupF l seen = l := by
  induction l generalizing seen with
  | nil => rfl
  | cons x l ih =>
      have hx : ¬ x ∈ seen := hs x (by simp)
      simp only [dedupF, hx, if_false]
      rw [ih (List.nodup_cons.mp hnd).2]
      intro y hy
      simp only [List.mem_cons]
      push_neg
      exact ⟨fun hc => (List.nodup_cons.mp hnd).1 (hc ▸ hy), hs y (by simp [hy])⟩

end Casting

namespace Casting

theorem any_isParen_false {A : List Char} (h : ¬ A.any isParen = true) :
    ∀ c ∈ A, isParen c = false := by
  intro c hc
  by_cases hp : isParen c
  · exact absurd (List.any_eq_true.mpr ⟨c, hc, hp⟩) h
  · simpa using hp

theorem vaultName_parenfree {A : List Char} {mode g m : String}
    (h : vaultName A mode = some (g, m)) : ∀ c ∈ g.data, isParen c = false := by
  unfold vaultName at h
  split at h
  · exact absurd h (by simp)
  · next hne =>
      split at h
      · exact absurd h (by simp)
      · next hpar =>
          have hall := any_isParen_false hpar
          split at h
          · have hg : g = String.mk [A.getLastD ' '] :=
              (congrArg Prod.fst (Option.some.inj h)).symm
            intro c hc
            rw [hg] at hc
            rcases List.mem_singleton.mp hc with rfl
            exact hall _ (getLastD_mem (by simpa using hne) ' ')
          · have hg : g = String.mk (trimLC A) :=
              (congrArg Prod.fst (Option.some.inj h)).symm
            intro c hc
            rw [hg] at hc
            exact hall c (mem_trimLC hc)

end Casting

namespace Casting

theorem vaultEntryMatch_parenfree {s g m : String}
    (h : vaultEntryMatch s = some (g, m)) : ∀ c ∈ g.data, isParen c = false := by
  unfold vaultEntryMatch at h
  cases hl : vaultAttempt "live" (trimR s.data) with
  | some p =>
      rw [hl] at h
      simp only [Option.orElse] at h
      have h2 : vaultAttempt "live" (trimR s.data) = some (g, m) := by rw [hl, h]
      unfold vaultAttempt at h2
      split at h2
      · exact vaultName_parenfree h2
      · exact absurd h2 (by simp)
  | none =>
      rw [hl] at h
      simp only [Option.orElse] at h
      unfold vaultAttempt at h
      split at h
      · exact vaultName_parenfree h
      · exact absurd h (by simp)

theorem data_ne_of_isEmpty_false {s : String} (h : ¬ s.isEmpty = true) :
    ¬ s.data = [] := by
  intro hc
  apply h
  rw [String.isEmpty_iff s]
  exact String.ext hc

theorem validNameMode_good {e : Yaml} {p : String × String}
    (h : validNameMode e = some p) :
    GoodName p.1 ∧ (p.2 = "live" ∨ p.2 = "watch") := by
  refine ⟨?_, validNameMode_mode (show validNameMode e = some (p.1, p.2) by rw [h])⟩
  cases e with
  | str s =>
      cases hm : vaultEntryMatch s with
      | none => simp [validNameMode, hm] at h
      | some q =>
          simp only [validNameMode, hm] at h
          split at h
          · exact absurd h (by simp)
          · next hne =>
              have hp1 : p.1 = pyStrip q.1 := (congrArg Prod.fst (Option.some.inj h)).symm
              have hq : vaultEntryMatch s = some (q.1, q.2) := by rw [hm]
              refine ⟨?_, ?_, ?_⟩
              · rw [hp1]
                unfold pyStrip
                rw [show (String.mk (trimLC q.1.data)).data = trimLC q.1.data from rfl,
                  trimLC_idem]
              · rw [hp1]
                exact data_ne_of_isEmpty_false hne
              · intro c hc
                rw [hp1] at hc
                exact vaultEntryMatch_parenfree hq c (mem_trimLC hc)
  | int n' => simp [validNameMode] at h
  | bool b => simp [validNameMode] at h
  | null => simp [validNameMode] at h
  | list xs => simp [validNameMode] at h

theorem vdm_good {es : List Yaml} {p : String × String} (h : p ∈ vdm es) :
    GoodName p.1 ∧ (p.2 = "live" ∨ p.2 = "watch") := by
  rw [vdm, List.mem_filterMap] at h
  obtain ⟨e, _, he⟩ := h
  exact validNameMode_good he

end Casting

namespace Casting

theorem append_emit_eq_live (n : String) :
    n ++ " (" ++ "live" ++ ")" = n ++ " (live)" := by
  apply String.ext
  simp only [String.data_append, List.append_assoc]
  rfl

theorem append_emit_eq_watch (n : String) :
    n ++ " (" ++ "watch" ++ ")" = n ++ " (watch)" := by
  apply String.ext
  simp only [String.data_append, List.append_assoc]
  rfl

theorem pyStrip_of_good {n : String} (hg : GoodName n) : pyStrip n = n := by
  apply String.ext
  rw [show (pyStrip n).data = trimLC n.data from rfl]
  exact hg.1

theorem validNameMode_emit {n md : String} (hg : GoodName n)
    (hmd : md = "live" ∨ md = "watch") :
    validNameMode (Yaml.str (n ++ " (" ++ md ++ ")")) = some (n, md) := by
  have hstrip : pyStrip n = n := pyStrip_of_good hg
  have hish : n.isEmpty = false := isEmpty_false_of_data hg.2.1
  rcases hmd with rfl | rfl
  · rw [append_emit_eq_live]
    simp only [validNameMode, reparse_live hg]
    rw [hstrip, hish]
    rfl
  · rw [append_emit_eq_watch]
    simp only [validNameMode, reparse_watch hg]
    rw [hstrip, hish]
    rfl

theorem find?_none_of_fresh {m : List (String × String)} {k : String}
    (h : ∀ r ∈ m, ¬ r.1 = k) : m.find? (fun q => q.1 = k) = none := by
  rw [List.find?_eq_none]
  intro x hx
  simpa using h x hx

theorem foldl_emit_fresh :
    ∀ (l : List (String × String)) (m : List (String × String)),
      (∀ p ∈ l, GoodName p.1 ∧ (p.2 = "live" ∨ p.2 = "watch")) →
      (l.map (fun p => p.1)).Nodup →
      (∀ p ∈ l, ∀ r ∈ m, ¬ r.1 = p.1) →
      (l.map (fun p => Yaml.str (p.1 ++ " (" ++ p.2 ++ ")"))).foldl hsyncStep m
        = m ++ l := by
  intro l
  induction l with
  | nil => intro m _ _ _; simp
  | cons p l ih =>
      intro m hg hnd hfresh
      rw [List.map_cons, List.foldl_cons]
      have hp := hg p (by simp)
      have hstep : hsyncStep m (Yaml.str (p.1 ++ " (" ++ p.2 ++ ")"))
          = m ++ [p] := by
        rw [hsyncStep_some m (by
          rw [validNameMode_emit hp.1 hp.2])]
        exact modesInsert_fresh (find?_none_of_fresh (hfresh p (by simp)))
      rw [hstep, ih (m ++ [p]) (fun q hq => hg q (by simp [hq]))
        (List.nodup_cons.mp hnd).2 ?_, List.append_assoc]
      · rfl
      · intro q hq r hr
        rcases List.mem_append.mp hr with hr1 | hr2
        · exact hfresh q (by simp [hq]) r hr1
        · rcases List.mem_cons.mp hr2 with rfl | h0
          · intro hc
            refine (List.nodup_cons.mp hnd).1 ?_
            have h2 : q.1 ∈ List.map (fun p => p.1) l :=
              List.mem_map_of_mem (fun p => p.1) hq
            rwa [← hc] at h2
          · simp at h0

end Casting

namespace Casting

theorem foldl_output_good (es : List Yaml) :
    ∀ p ∈ es.foldl hsyncStep [], GoodName p.1 ∧ (p.2 = "live" ∨ p.2 = "watch") := by
  intro p hp
  rw [foldl_hsyncStep_char es [] (by simp) (by simp)] at hp
  simp only [List.map_nil, List.nil_append] at hp
  rw [List.mem_map] at hp
  obtain ⟨n, hn, rfl⟩ := hp
  have hn2 := (dedupF_mem hn).1
  rw [hsNames, List.mem_map] at hn2
  obtain ⟨q, hq, hq2⟩ := hn2
  constructor
  · have hg := (vdm_good hq).1
    rw [hq2] at hg
    exact hg
  · unfold specMode
    by_cases h : anyLive es n <;> simp [h]

theorem foldl_output_keys (es : List Yaml) :
    ((es.foldl hsyncStep []).map (fun p => p.1)) = dedupF (hsNames es) [] := by
  rw [foldl_hsyncStep_char es [] (by simp) (by simp)]
  simp only [List.map_nil, List.nil_append, List.map_map]
  have h4 : List.map ((fun p => p.1) ∘ fun n => (n, specMode es n))
      (dedupF (hsNames es) []) = List.map (fun a => a) (dedupF (hsNames es) []) :=
    List.map_congr_left (fun a _ => rfl)
  rw [h4, List.map_id']

theorem canonHsyncVal_idem (v : Yaml) :
    canonHsyncVal (canonHsyncVal v) = canonHsyncVal v := by
  unfold canonHsyncVal
  set F := (hsyncEntries v).foldl hsyncStep [] with hF
  set S := List.insertionSort cfLe F with hS
  have hentries : hsyncEntries (Yaml.list
      (S.map (fun p => Yaml.str (p.1 ++ " (" ++ p.2 ++ ")"))))
      = S.map (fun p => Yaml.str (p.1 ++ " (" ++ p.2 ++ ")")) := rfl
  rw [hentries]
  have hgood : ∀ p ∈ S, GoodName p.1 ∧ (p.2 = "live" ∨ p.2 = "watch") := by
    intro p hp
    exact foldl_output_good (hsyncEntries v) p ((List.mem_insertionSort cfLe).mp hp)
  have hkeysnodup : (S.map (fun p => p.1)).Nodup := by
    have hperm : List.Perm S F := List.perm_insertionSort cfLe F
    have h2 : List.Perm (F.map (fun p => p.1)) (S.map (fun p => p.1)) :=
      (hperm.map (fun p => p.1)).symm
    refine h2.nodup ?_
    rw [hF, foldl_output_keys (hsyncEntries v)]
    exact dedupF_nodup _ []
  have hfold : (S.map (fun p => Yaml.str (p.1 ++ " (" ++ p.2 ++ ")"))).foldl
      hsyncStep [] = S := by
    have h3 := foldl_emit_fresh S [] hgood hkeysnodup (by intro p _ r hr; simp at hr)
    simpa using h3
  rw [hfold]
  have hsorted : List.Sorted cfLe S := List.sorted_insertionSort cfLe F
  rw [List.Sorted.insertionSort_eq hsorted]

end Casting

namespace Casting

theorem canonCodebasesVal_list (l : List Yaml) :
    canonCodebasesVal (Yaml.list l) = codebaseSorted l := rfl

theorem codebaseVals_mem {xs : List Yaml} {s : String} (h : s ∈ codebaseVals xs) :
    pyStrip s = s ∧ s.isEmpty = false := by
  unfold codebaseVals at h
  rw [List.mem_filter] at h
  obtain ⟨h1, h2⟩ := h
  rw [List.mem_map] at h1
  obtain ⟨x, _, rfl⟩ := h1
  exact ⟨pyStrip_idem _, by simpa using h2⟩

theorem codebaseVals_strs {strs : List String}
    (h : ∀ s ∈ strs, pyStrip s = s ∧ s.isEmpty = false) :
    codebaseVals (strs.map Yaml.str) = strs := by
  unfold codebaseVals
  rw [List.map_map]
  have h1 : List.map ((fun x => pyStrip (pyStr x)) ∘ Yaml.str) strs
      = List.map (fun a => a) strs :=
    List.map_congr_left (fun a ha => by simp [pyStr, (h a ha).1])
  rw [h1, List.map_id']
  exact List.filter_eq_self.mpr (fun a ha => by simp [(h a ha).2])

theorem codebaseSorted_idem (xs : List Yaml) :
    canonCodebasesVal (codebaseSorted xs) = codebaseSorted xs := by
  set strs := List.insertionSort cfLeS (dedupF (codebaseVals xs) []) with hstrs
  have hgood : ∀ s ∈ strs, pyStrip s = s ∧ s.isEmpty = false := by
    intro s hs
    exact codebaseVals_mem ((dedupF_mem ((List.mem_insertionSort cfLeS).mp hs)).1)
  have hnd : strs.Nodup := by
    have hperm := List.perm_insertionSort cfLeS (dedupF (codebaseVals xs) [])
    exact hperm.symm.nodup (dedupF_nodup _ [])
  have hsorted : List.Sorted cfLeS strs :=
    List.sorted_insertionSort cfLeS (dedupF (codebaseVals xs) [])
  have hkey : List.insertionSort cfLeS (dedupF (codebaseVals (strs.map Yaml.str)) [])
      = strs := by
    rw [codebaseVals_strs hgood, dedupF_eq_self hnd (by intro x _ hc; simp at hc)]
    exact List.Sorted.insertionSort_eq hsorted
  show Yaml.list ((List.insertionSort cfLeS
      (dedupF (codebaseVals (strs.map Yaml.str)) [])).map Yaml.str)
    = Yaml.list (strs.map Yaml.str)
  rw [hkey]

theorem canonCodebasesVal_idem (v : Yaml) :
    canonCodebasesVal (canonCodebasesVal v) = canonCodebasesVal v := by
  cases v with
  | str s => exact codebaseSorted_idem [.str s]
  | list xs => exact codebaseSorted_idem xs
  | int n => rfl
  | bool b => rfl
  | null => rfl

end Casting

namespace Casting

theorem setVal_self {m : FrontMatter} {k : String} {v : Yaml}
    (h : getVal m k = some v) : setVal m k v = m := by
  induction m with
  | nil => simp [getVal] at h
  | cons p rest ih =>
      by_cases hp : p.1 = k
      · simp only [getVal, hp, if_true] at h
        have hv : p.2 = v := Option.some.inj h
        have hpair : ((k, p.2) : String × Yaml) = p := by rw [← hp]
        simp [setVal, hp, ← hv, hpair]
      · simp only [getVal, hp, if_false] at h
        simp [setVal, hp, ih h]

theorem setVal_setVal (m : FrontMatter) (k : String) (v w : Yaml) :
    setVal (setVal m k v) k w = setVal m k w := by
  induction m with
  | nil => simp [setVal]
  | cons p rest ih =>
      by_cases hp : p.1 = k
      · simp [setVal, hp]
      · simp [setVal, hp, ih]

theorem canonHsyncVal_notNull (v : Yaml) : (canonHsyncVal v).isNull = false := rfl

theorem canonCodebasesVal_notNull (v : Yaml) : (canonCodebasesVal v).isNull = false := by
  cases v <;> rfl

theorem getVal_canonHsyncStep_self (fm : FrontMatter) :
    getVal (canonHsyncStep fm) "cast-hsync"
      = match getVal fm "cast-hsync" with
        | none => none
        | some v => if v.isNull then some v else some (canonHsyncVal v) := by
  unfold canonHsyncStep
  cases hg : getVal fm "cast-hsync" with
  | none => rw [hg]
  | some v =>
      by_cases hn : v.isNull
      · simp [hg, hn]
      · simp [hg, hn, getVal_setVal]

theorem canonCodebasesStep_idem (fm : FrontMatter) :
    canonCodebasesStep (canonCodebasesStep fm) = canonCodebasesStep fm := by
  cases hg : getVal fm "cast-codebases" with
  | none =>
      have h1 : canonCodebasesStep fm = fm := by unfold canonCodebasesStep; rw [hg]
      rw [h1, h1]
  | some v =>
      by_cases hn : v.isNull
      · have h1 : canonCodebasesStep fm = fm := by
          unfold canonCodebasesStep; rw [hg]; simp [hn]
        rw [h1, h1]
      · have h1 : canonCodebasesStep fm
            = setVal fm "cast-codebases" (canonCodebasesVal v) := by
          unfold canonCodebasesStep; rw [hg]; simp [hn]
        rw [h1]
        unfold canonCodebasesStep
        rw [getVal_setVal]
        simp [canonCodebasesVal_notNull, canonCodebasesVal_idem, setVal_setVal]

end Casting

namespace Casting

theorem canonHsyncStep_stable {x : FrontMatter}
    (h : ∀ v, getVal x "cast-hsync" = some v →
      v.isNull = true ∨ canonHsyncVal v = v) :
    canonHsyncStep x = x := by
  unfold canonHsyncStep
  cases hg : getVal x "cast-hsync" with
  | none => rfl
  | some v =>
      show (if v.isNull = true then x else setVal x "cast-hsync" (canonHsyncVal v)) = x
      rcases h v hg with hn | hfix
      · rw [if_pos hn]
      · rw [if_neg ?_, hfix]
        · exact setVal_self hg
        · intro hc
          rw [← hfix] at hc
          rw [canonHsyncVal_notNull] at hc
          exact Bool.false_ne_true hc

theorem CH_after_CB_CH (fm : FrontMatter) :
    canonHsyncStep (canonCodebasesStep (canonHsyncStep fm))
      = canonCodebasesStep (canonHsyncStep fm) := by
  apply canonHsyncStep_stable
  intro v hv
  rw [canonCodebasesStep_other (canonHsyncStep fm) "cast-hsync" (by decide)] at hv
  rw [getVal_canonHsyncStep_self fm] at hv
  cases hg : getVal fm "cast-hsync" with
  | none => rw [hg] at hv; exact absurd hv (by simp)
  | some w =>
      rw [hg] at hv
      have hv2 : (if w.isNull = true then some w else some (canonHsyncVal w)) = some v := hv
      by_cases hn : w.isNull
      · rw [if_pos hn] at hv2
        exact Or.inl (Option.some.inj hv2 ▸ hn)
      · rw [if_neg hn] at hv2
        right
        rw [← Option.some.inj hv2, canonHsyncVal_idem]

theorem canonicalizeCastLists_idem (fm : FrontMatter) :
    canonicalizeCastLists (canonicalizeCastLists fm) = canonicalizeCastLists fm := by
  unfold canonicalizeCastLists
  rw [CH_after_CB_CH fm, canonCodebasesStep_idem]

end Casting

namespace Casting

theorem reorder_cast_fields_eq (fm : FrontMatter) :
    reorder_cast_fields fm
      = (match getVal ((canonicalizeCastLists fm).filter (fun p => ¬ isCastKey p.1))
            "last-updated" with
         | some v => [("last-updated", v)]
         | none => [])
        ++ CAST_FIELDS_ORDER.filterMap
            (fun k => (getVal ((canonicalizeCastLists fm).filter
              (fun p => isCastKey p.1)) k).map (fun v => (k, v)))
        ++ (if hasKey ((canonicalizeCastLists fm).filter (fun p => ¬ isCastKey p.1))
              "last-updated" then
            removeKey ((canonicalizeCastLists fm).filter (fun p => ¬ isCastKey p.1))
              "last-updated"
          else (canonicalizeCastLists fm).filter (fun p => ¬ isCastKey p.1)) := rfl

theorem hasKey_getVal (m : FrontMatter) (k : String) :
    hasKey m k = (getVal m k).isSome := by
  induction m with
  | nil => rfl
  | cons p rest ih =>
      by_cases hp : p.1 = k <;> simp [hasKey, getVal, hp, ih]

theorem getVal_removeKey (m : FrontMatter) (j k : String) :
    getVal (removeKey m j) k = if k = j then none else getVal m k := by
  unfold removeKey
  rw [getVal_filter_key (fun s => decide ¬ (s = j)) m k]
  by_cases h : k = j <;> simp [h]

theorem hasKey_removeKey_self (m : FrontMatter) (k : String) :
    hasKey (removeKey m k) k = false := by
  rw [hasKey_getVal, getVal_removeKey]
  simp

theorem getVal_reorder_order (fm : FrontMatter) (k : String)
    (hk : k ∈ CAST_FIELDS_ORDER) (hck : isCastKey k = true) (hlu : ¬ k = "last-updated") :
    getVal (reorder_cast_fields fm) k = getVal (canonicalizeCastLists fm) k := by
  rw [reorder_cast_fields_eq fm, getVal_append, getVal_append]
  have h1 : getVal (match getVal ((canonicalizeCastLists fm).filter
      (fun p => ¬ isCastKey p.1)) "last-updated" with
      | some v => [("last-updated", v)]
      | none => ([] : FrontMatter)) k = none := by
    cases getVal ((canonicalizeCastLists fm).filter (fun p => ¬ isCastKey p.1))
        "last-updated" with
    | none => rfl
    | some v => simp [getVal, show ¬ "last-updated" = k from fun h => hlu h.symm]
  have h2 : getVal (CAST_FIELDS_ORDER.filterMap
      (fun j => (getVal ((canonicalizeCastLists fm).filter
        (fun p => isCastKey p.1)) j).map (fun v => (j, v)))) k
      = getVal ((canonicalizeCastLists fm).filter (fun p => isCastKey p.1)) k :=
    getVal_known CAST_FIELDS_ORDER _ k hk (by decide)
  have hcf : getVal ((canonicalizeCastLists fm).filter (fun p => isCastKey p.1)) k
      = getVal (canonicalizeCastLists fm) k := by
    rw [getVal_filter_key isCastKey, if_pos hck]
  have h3 : getVal (if hasKey ((canonicalizeCastLists fm).filter
        (fun p => ¬ isCastKey p.1)) "last-updated" then
      removeKey ((canonicalizeCastLists fm).filter (fun p => ¬ isCastKey p.1))
        "last-updated"
      else (canonicalizeCastLists fm).filter (fun p => ¬ isCastKey p.1)) k = none := by
    have hof : getVal ((canonicalizeCastLists fm).filter (fun p => ¬ isCastKey p.1)) k
        = none := by
      rw [getVal_filter_key (fun s => ¬ isCastKey s)]
      simp [hck]
    by_cases hc : hasKey ((canonicalizeCastLists fm).filter
        (fun p => ¬ isCastKey p.1)) "last-updated"
    · rw [if_pos hc, getVal_removeKey]
      rw [if_neg hlu, hof]
    · rw [if_neg hc, hof]
  rw [h1, h2, h3, hcf]
  show oOr (getVal (canonicalizeCastLists fm) k) none = getVal (canonicalizeCastLists fm) k
  exact oOr_none _

end Casting

namespace Casting

theorem getVal_canonCodebasesStep_self (fm : FrontMatter) :
    getVal (canonCodebasesStep fm) "cast-codebases"
      = match getVal fm "cast-codebases" with
        | none => none
        | some v => if v.isNull then some v else some (canonCodebasesVal v) := by
  unfold canonCodebasesStep
  cases hg : getVal fm "cast-codebases" with
  | none => rw [hg]
  | some v =>
      by_cases hn : v.isNull
      · simp [hg, hn]
      · simp [hg, hn, getVal_setVal]

theorem canonCodebasesStep_stable {x : FrontMatter}
    (h : ∀ v, getVal x "cast-codebases" = some v →
      v.isNull = true ∨ canonCodebasesVal v = v) :
    canonCodebasesStep x = x := by
  unfold canonCodebasesStep
  cases hg : getVal x "cast-codebases" with
  | none => rfl
  | some v =>
      show (if v.isNull = true then x
        else setVal x "cast-codebases" (canonCodebasesVal v)) = x
      rcases h v hg with hn | hfix
      · rw [if_pos hn]
      · rw [if_neg ?_, hfix]
        · exact setVal_self hg
        · intro hc
          rw [← hfix] at hc
          rw [canonCodebasesVal_notNull] at hc
          exact Bool.false_ne_true hc

theorem hsync_stable_canon (fm : FrontMatter) :
    ∀ v, getVal (canonicalizeCastLists fm) "cast-hsync" = some v →
      v.isNull = true ∨ canonHsyncVal v = v := by
  intro v hv
  rw [show canonicalizeCastLists fm = canonCodebasesStep (canonHsyncStep fm) from rfl,
    canonCodebasesStep_other (canonHsyncStep fm) "cast-hsync" (by decide),
    getVal_canonHsyncStep_self fm] at hv
  cases hg : getVal fm "cast-hsync" with
  | none => rw [hg] at hv; exact absurd hv (by simp)
  | some w =>
      rw [hg] at hv
      have hv2 : (if w.isNull = true then some w else some (canonHsyncVal w)) = some v := hv
      by_cases hn : w.isNull
      · rw [if_pos hn] at hv2
        exact Or.inl (Option.some.inj hv2 ▸ hn)
      · rw [if_neg hn] at hv2
        right
        rw [← Option.some.inj hv2, canonHsyncVal_idem]

theorem cbs_stable_canon (fm : FrontMatter) :
    ∀ v, getVal (canonicalizeCastLists fm) "cast-codebases" = some v →
      v.isNull = true ∨ canonCodebasesVal v = v := by
  intro v hv
  rw [show canonicalizeCastLists fm = canonCodebasesStep (canonHsyncStep fm) from rfl,
    getVal_canonCodebasesStep_self (canonHsyncStep fm)] at hv
  cases hg : getVal (canonHsyncStep fm) "cast-codebases" with
  | none => rw [hg] at hv; exact absurd hv (by simp)
  | some w =>
      rw [hg] at hv
      have hv2 : (if w.isNull = true then some w else some (canonCodebasesVal w)) = some v := hv
      by_cases hn : w.isNull
      · rw [if_pos hn] at hv2
        exact Or.inl (Option.some.inj hv2 ▸ hn)
      · rw [if_neg hn] at hv2
        right
        rw [← Option.some.inj hv2, canonCodebasesVal_idem]

theorem canonicalize_reorder (fm : FrontMatter) :
    canonicalizeCastLists (reorder_cast_fields fm) = reorder_cast_fields fm := by
  have hch : canonHsyncStep (reorder_cast_fields fm) = reorder_cast_fields fm := by
    apply canonHsyncStep_stable
    intro v hv
    rw [getVal_reorder_order fm "cast-hsync" (by decide) rfl (by decide)] at hv
    exact hsync_stable_canon fm v hv
  have hcb : canonCodebasesStep (reorder_cast_fields fm) = reorder_cast_fields fm := by
    apply canonCodebasesStep_stable
    intro v hv
    rw [getVal_reorder_order fm "cast-codebases" (by decide) rfl (by decide)] at hv
    exact cbs_stable_canon fm v hv
  show canonCodebasesStep (canonHsyncStep (reorder_cast_fields fm)) = reorder_cast_fields fm
  rw [hch, hcb]

end Casting

namespace Casting

theorem all_of_not_hasKey {m : FrontMatter} {k : String} (h : hasKey m k = false) :
    ∀ p ∈ m, ¬ p.1 = k := by
  induction m with
  | nil => intro p hp; simp at hp
  | cons q rest ih =>
      intro p hp
      by_cases hq : q.1 = k
      · simp [hasKey, hq] at h
      · simp only [hasKey, hq, if_false] at h
        rcases List.mem_cons.mp hp with rfl | hp'
        · exact hq
        · exact ih h p hp'

theorem reorder_eq_self_of (x lu known others : FrontMatter)
    (hcanon : canonicalizeCastLists x = x)
    (hx : x = lu ++ known ++ others)
    (hlushape : (lu = [] ∧ hasKey others "last-updated" = false) ∨
      (∃ v, lu = [("last-updated", v)] ∧ hasKey others "last-updated" = false))
    (hknownEq : CAST_FIELDS_ORDER.filterMap
        (fun k => (getVal known k).map (fun v => (k, v))) = known)
    (hknownCast : ∀ p ∈ known, isCastKey p.1 = true)
    (hothersNonCast : ∀ p ∈ others, isCastKey p.1 = false) :
    reorder_cast_fields x = x := by
  have hluKeys : ∀ p ∈ lu, p.1 = "last-updated" := by
    rcases hlushape with ⟨h0, _⟩ | ⟨v, h1, _⟩
    · rw [h0]; intro p hp; simp at hp
    · rw [h1]; intro p hp; rcases List.mem_singleton.mp hp with rfl; rfl
  have hcf : x.filter (fun p => isCastKey p.1) = known := by
    rw [hx, List.filter_append, List.filter_append]
    have e1 : lu.filter (fun p => isCastKey p.1) = [] := by
      rw [List.filter_eq_nil_iff]
      intro p hp
      rw [show p.1 = "last-updated" from hluKeys p hp]
      decide
    have e2 : known.filter (fun p => isCastKey p.1) = known :=
      List.filter_eq_self.mpr (fun p hp => by simp [hknownCast p hp])
    have e3 : others.filter (fun p => isCastKey p.1) = [] := by
      rw [List.filter_eq_nil_iff]
      intro p hp
      simp [hothersNonCast p hp]
    rw [e1, e2, e3]
    simp
  have hof : x.filter (fun p => ¬ isCastKey p.1) = lu ++ others := by
    rw [hx, List.filter_append, List.filter_append]
    have e1 : lu.filter (fun p => ¬ isCastKey p.1) = lu :=
      List.filter_eq_self.mpr (fun p hp => by
        rw [show p.1 = "last-updated" from hluKeys p hp]
        decide)
    have e2 : known.filter (fun p => ¬ isCastKey p.1) = [] := by
      rw [List.filter_eq_nil_iff]
      intro p hp
      simp [hknownCast p hp]
    have e3 : others.filter (fun p => ¬ isCastKey p.1) = others :=
      List.filter_eq_self.mpr (fun p hp => by simp [hothersNonCast p hp])
    rw [e1, e2, e3]
    simp
  rw [reorder_cast_fields_eq x, hcanon, hcf, hof, hknownEq]
  rcases hlushape with ⟨h0, hno⟩ | ⟨v, h1, hno⟩
  · subst h0
    have hg : getVal (([] : FrontMatter) ++ others) "last-updated" = none := by
      rw [hasKey_getVal] at hno
      cases hgv : getVal others "last-updated" with
      | none => exact hgv
      | some w => rw [hgv] at hno; simp at hno
    have hh : hasKey (([] : FrontMatter) ++ others) "last-updated" = false := by
      rw [hasKey_getVal, hg]
      rfl
    rw [hg, hh, hx]
    rfl
  · rw [h1]
    have hg : getVal ([("last-updated", v)] ++ others) "last-updated" = some v := rfl
    have hrm : removeKey ([("last-updated", v)] ++ others) "last-updated" = others := by
      unfold removeKey
      rw [List.filter_append]
      have e2 : List.filter (fun p => ¬ p.1 = "last-updated") others = others :=
        List.filter_eq_self.mpr (fun p hp => by simp [all_of_not_hasKey hno p hp])
      rw [e2]
      rfl
    rw [hg, hrm, hx, h1]
    rfl

theorem reorder_cast_fields_idem (fm : FrontMatter) :
    reorder_cast_fields (reorder_cast_fields fm) = reorder_cast_fields fm := by
  refine reorder_eq_self_of _ _ _ _ (canonicalize_reorder fm)
    (reorder_cast_fields_eq fm) ?_ ?_ ?_ ?_
  · cases hg : getVal ((canonicalizeCastLists fm).filter (fun p => ¬ isCastKey p.1))
        "last-updated" with
    | none =>
        left
        have hhk : hasKey ((canonicalizeCastLists fm).filter (fun p => ¬ isCastKey p.1))
            "last-updated" = false := by
          rw [hasKey_getVal, hg]
          rfl
        constructor
        · rfl
        · rw [hhk]
          exact hhk
    | some v =>
        right
        have hhk : hasKey ((canonicalizeCastLists fm).filter (fun p => ¬ isCastKey p.1))
            "last-updated" = true := by
          rw [hasKey_getVal, hg]
          rfl
        refine ⟨v, rfl, ?_⟩
        rw [hhk]
        exact hasKey_removeKey_self _ _
  · refine List.filterMap_congr ?_
    intro k hk
    rw [getVal_known CAST_FIELDS_ORDER
      ((canonicalizeCastLists fm).filter (fun p => isCastKey p.1)) k hk (by decide)]
  · intro p hp
    rcases List.mem_filterMap.mp hp with ⟨k, hk, hpk⟩
    rcases Option.map_eq_some'.mp hpk with ⟨v, hv, hpv⟩
    have hfst : p.1 = k := by rw [← hpv]
    rw [hfst]
    fin_cases hk <;> decide
  · intro p hp
    have hpof : p ∈ (canonicalizeCastLists fm).filter (fun q => ¬ isCastKey q.1) := by
      cases hc : hasKey ((canonicalizeCastLists fm).filter (fun q => ¬ isCastKey q.1))
          "last-updated" with
      | false =>
          rw [hc] at hp
          rw [if_neg (by simp)] at hp
          exact hp
      | true =>
          rw [hc] at hp
          rw [if_pos rfl] at hp
          unfold removeKey at hp
          exact List.mem_of_mem_filter hp
    simpa using List.of_mem_filter hpof

/-- C5: canonicalization is idempotent: reordering twice equals reordering once,
and list canonicalization twice equals list canonicalization once. -/
theorem canonicalization_idempotent :
    (∀ fm : FrontMatter,
      reorder_cast_fields (reorder_cast_fields fm) = reorder_cast_fields fm) ∧
    (∀ fm : FrontMatter,
      canonicalizeCastLists (canonicalizeCastLists fm) = canonicalizeCastLists fm) :=
  ⟨reorder_cast_fields_idem, canonicalizeCastLists_idem⟩

end Casting
